import Mathlib

/-!
Verification of the badge-editable incremental segmentation engine
(`src/index.mjs`).  The JavaScript source is modelled shallowly:

* strings become `List Char`;
* DOM badge elements (`span.badge`) become `Badge` records, identified by
  their integer badge key (the engine assigns those keys injectively, so key
  lookup models DOM node identity);
* the `badgeMap` becomes an association list;
* the event-listener bodies become explicit state-passing functions that also
  return the batches the `onChange` callback would receive.

The `<br>` sentinel bookkeeping of `addSentinal` is not tracked: it only ever
appends or replaces the badge's trailing marker node and assigns
`data.sentinal`, which no claim observes (it changes no text, class, map entry
or emitted event for the flows modelled here).
-/

/-- The whitespace recognised by `String.prototype.trim`, restricted to the
ASCII whitespace the engine can meet in these claims. -/
def isJsSpace (c : Char) : Bool :=
  c = ' ' || c = '\t' || c = '\n' || c = '\r' || c = '\x0b' || c = '\x0c'

/-- JS `t.trim()`. -/
def jsTrim (t : List Char) : List Char :=
  ((t.dropWhile isJsSpace).reverse.dropWhile isJsSpace).reverse

/-- JS `source.indexOf(c)`, with `none` for `-1`. -/
def jsIndexOf (c : Char) : List Char → Option Nat
  | [] => none
  | a :: as => if a = c then some 0 else (jsIndexOf c as).map (· + 1)

theorem jsIndexOf_lt_length {c : Char} {s : List Char} {i : Nat}
    (h : jsIndexOf c s = some i) : i < s.length := by
  induction s generalizing i with
  | nil => simp [jsIndexOf] at h
  | cons a as ih =>
    by_cases ha : a = c
    · simp [jsIndexOf, ha] at h
      simp only [List.length_cons]
      omega
    · simp [jsIndexOf, ha] at h
      obtain ⟨j, hj, rfl⟩ := h
      have := ih hj
      simp only [List.length_cons]
      omega

theorem jsIndexOf_get {c : Char} {s : List Char} {i : Nat}
    (h : jsIndexOf c s = some i) : s.get? i = some c := by
  induction s generalizing i with
  | nil => simp [jsIndexOf] at h
  | cons a as ih =>
    by_cases ha : a = c
    · simp [jsIndexOf, ha] at h
      subst h
      simp [ha]
    · simp [jsIndexOf, ha] at h
      obtain ⟨j, hj, rfl⟩ := h
      simpa using ih hj

theorem jsIndexOf_take {c : Char} {s : List Char} {i : Nat}
    (h : jsIndexOf c s = some i) : c ∉ s.take i := by
  induction s generalizing i with
  | nil => simp [jsIndexOf] at h
  | cons a as ih =>
    by_cases ha : a = c
    · simp [jsIndexOf, ha] at h
      subst h
      simp
    · simp [jsIndexOf, ha] at h
      obtain ⟨j, hj, rfl⟩ := h
      simp [List.take_succ_cons]
      exact ⟨fun hc => ha hc.symm, ih hj⟩

theorem jsIndexOf_none {c : Char} {s : List Char}
    (h : jsIndexOf c s = none) : c ∉ s := by
  induction s with
  | nil => simp
  | cons a as ih =>
    by_cases ha : a = c
    · simp [jsIndexOf, ha] at h
    · simp [jsIndexOf, ha] at h
      simp [ih h]
      exact fun hc => ha hc.symm

/-- Decomposition of a list at the first occurrence found by `jsIndexOf`. -/
theorem jsIndexOf_decomp {c : Char} {s : List Char} {i : Nat}
    (h : jsIndexOf c s = some i) : s = s.take i ++ c :: s.drop (i + 1) := by
  have hlt := jsIndexOf_lt_length h
  have hgc : s[i] = c := by
    have hget := jsIndexOf_get h
    rw [List.get?_eq_getElem?, List.getElem?_eq_getElem hlt] at hget
    simpa using hget
  have hs : s = s.take i ++ s.drop i := (List.take_append_drop i s).symm
  rw [List.drop_eq_getElem_cons hlt, hgc] at hs
  exact hs

/-- A parsed item of the default comma parser (`BadgeUserData` with the
fields `CommaSeparatedParser` actually produces). -/
structure CSItem where
  text : List Char
  startOff : Nat
  endOff : Nat
deriving DecidableEq

/-- The loop of `CommaSeparatedParser`: while the first comma of the
remaining source sits at a positive index, split a field off; otherwise
(no comma, or a comma at index 0) the whole remaining source becomes the
final item.  Mirrors `for (let i = source.indexOf(','); i > 0; ...)`. -/
def CommaSeparatedParser.go (source : List Char) (offset : Nat) : List CSItem :=
  match h : jsIndexOf ',' source with
  | some i =>
    if hi : 0 < i then
      { text := source.take i, startOff := offset, endOff := offset + i } ::
        CommaSeparatedParser.go (source.drop (i + 1)) (offset + i + 1)
    else
      [{ text := source, startOff := offset, endOff := offset + source.length }]
  | none => [{ text := source, startOff := offset, endOff := offset + source.length }]
termination_by source.length
decreasing_by
  have := jsIndexOf_lt_length h
  simp
  omega

/-- `CommaSeparatedParser(source)` from `src/index.mjs`. -/
def CommaSeparatedParser (source : List Char) : List CSItem :=
  CommaSeparatedParser.go source 0

theorem CommaSeparatedParser.go_comma {s : List Char} {i : Nat} (off : Nat)
    (h : jsIndexOf ',' s = some i) (hi : 0 < i) :
    CommaSeparatedParser.go s off =
      { text := s.take i, startOff := off, endOff := off + i } ::
        CommaSeparatedParser.go (s.drop (i + 1)) (off + i + 1) := by
  conv_lhs => unfold CommaSeparatedParser.go
  split
  · next j hj =>
    rw [h] at hj
    cases hj
    simp [hi]
  · next hn => simp [h] at hn

theorem CommaSeparatedParser.go_last_none {s : List Char} (off : Nat)
    (h : jsIndexOf ',' s = none) :
    CommaSeparatedParser.go s off =
      [{ text := s, startOff := off, endOff := off + s.length }] := by
  unfold CommaSeparatedParser.go
  split
  · next j hj => simp [h] at hj
  · rfl

theorem CommaSeparatedParser.go_last_zero {s : List Char} (off : Nat)
    (h : jsIndexOf ',' s = some 0) :
    CommaSeparatedParser.go s off =
      [{ text := s, startOff := off, endOff := off + s.length }] := by
  unfold CommaSeparatedParser.go
  split
  · next j hj =>
    rw [h] at hj
    cases hj
    simp
  · next hn => simp [h] at hn

example : CommaSeparatedParser ("foo,".toList) =
    [{ text := "foo".toList, startOff := 0, endOff := 3 },
     { text := [], startOff := 4, endOff := 4 }] := by
  rw [CommaSeparatedParser,
    CommaSeparatedParser.go_comma 0 (show jsIndexOf ',' ("foo,".toList) = some 3 by decide)
      (by decide)]
  rw [show ("foo,".toList).drop 4 = [] by decide,
    CommaSeparatedParser.go_last_none 4 (by decide)]
  decide

example : CommaSeparatedParser (",a".toList) =
    [{ text := ",a".toList, startOff := 0, endOff := 2 }] := by
  rw [CommaSeparatedParser, CommaSeparatedParser.go_last_zero 0 (by decide)]
  decide

theorem CommaSeparatedParser.go_ne_nil (s : List Char) (off : Nat) :
    CommaSeparatedParser.go s off ≠ [] := by
  unfold CommaSeparatedParser.go
  split
  · split <;> simp
  · simp

/-- Helper: `getLast?` skips a cons when the tail is nonempty. -/
theorem getLast?_cons_ne {α : Type} {a : α} {l : List α} (h : l ≠ []) :
    (a :: l).getLast? = l.getLast? := by
  cases l with
  | nil => cases h rfl
  | cons b t => simp [List.getLast?_cons_cons]

/-- Helper: `intercalate` over a cons with a nonempty tail. -/
theorem intercalate_cons_ne_nil {sep a : List Char} {l : List (List Char)}
    (h : l ≠ []) :
    List.intercalate sep (a :: l) = a ++ sep ++ List.intercalate sep l := by
  cases l with
  | nil => cases h rfl
  | cons b t => simp [List.intercalate, List.intersperse]

theorem CommaSeparatedParser.go_texts (s : List Char) (off : Nat) :
    List.intercalate [','] ((CommaSeparatedParser.go s off).map (·.text)) = s := by
  induction s, off using CommaSeparatedParser.go.induct with
  | case1 s off i h hi ih =>
    rw [CommaSeparatedParser.go_comma off h hi]
    have hne : (CommaSeparatedParser.go (s.drop (i + 1)) (off + i + 1)).map (·.text) ≠ [] := by
      simp [CommaSeparatedParser.go_ne_nil]
    rw [List.map_cons, intercalate_cons_ne_nil hne, ih]
    have := jsIndexOf_decomp h
    conv_rhs => rw [this]
    simp
  | case2 s off i h hi =>
    have h0 : i = 0 := by omega
    subst h0
    rw [CommaSeparatedParser.go_last_zero off h]
    simp [List.intercalate]
  | case3 s off h =>
    rw [CommaSeparatedParser.go_last_none off h]
    simp [List.intercalate]

theorem CommaSeparatedParser.go_head_start (s : List Char) (off : Nat) :
    ((CommaSeparatedParser.go s off).map (·.startOff)).head? = some off := by
  unfold CommaSeparatedParser.go
  split
  · split <;> simp
  · simp

theorem CommaSeparatedParser.go_last_end (s : List Char) (off : Nat) :
    ((CommaSeparatedParser.go s off).map (·.endOff)).getLast? = some (off + s.length) := by
  induction s, off using CommaSeparatedParser.go.induct with
  | case1 s off i h hi ih =>
    rw [CommaSeparatedParser.go_comma off h hi]
    have hlt := jsIndexOf_lt_length h
    have hne : (CommaSeparatedParser.go (s.drop (i + 1)) (off + i + 1)).map (·.endOff) ≠ [] := by
      simp [CommaSeparatedParser.go_ne_nil]
    rw [List.map_cons, getLast?_cons_ne hne, ih]
    have : off + i + 1 + (s.drop (i + 1)).length = off + s.length := by
      simp
      omega
    rw [this]
  | case2 s off i h hi =>
    have h0 : i = 0 := by omega
    subst h0
    rw [CommaSeparatedParser.go_last_zero off h]
    simp
  | case3 s off h =>
    rw [CommaSeparatedParser.go_last_none off h]
    simp

theorem CommaSeparatedParser.go_chain (s : List Char) (off : Nat) :
    List.Chain' (fun a b => b.startOff = a.endOff + 1) (CommaSeparatedParser.go s off) := by
  induction s, off using CommaSeparatedParser.go.induct with
  | case1 s off i h hi ih =>
    rw [CommaSeparatedParser.go_comma off h hi]
    rw [List.chain'_cons']
    refine ⟨?_, ih⟩
    intro b hb
    have hh := CommaSeparatedParser.go_head_start (s.drop (i + 1)) (off + i + 1)
    rw [List.head?_map] at hh
    rw [hb] at hh
    simp at hh
    simp [hh]
  | case2 s off i h hi =>
    have h0 : i = 0 := by omega
    subst h0
    rw [CommaSeparatedParser.go_last_zero off h]
    simp
  | case3 s off h =>
    rw [CommaSeparatedParser.go_last_none off h]
    simp

theorem CommaSeparatedParser.go_slice (s : List Char) (off : Nat) :
    ∀ it ∈ CommaSeparatedParser.go s off,
      off ≤ it.startOff ∧ it.startOff ≤ it.endOff ∧
      it.text = (s.drop (it.startOff - off)).take (it.endOff - it.startOff) := by
  induction s, off using CommaSeparatedParser.go.induct with
  | case1 s off i h hi ih =>
    rw [CommaSeparatedParser.go_comma off h hi]
    intro it hit
    rcases List.mem_cons.mp hit with hhead | htail
    · subst hhead
      simp
    · obtain ⟨h1, h2, h3⟩ := ih it htail
      refine ⟨by omega, h2, ?_⟩
      rw [h3, List.drop_drop]
      have harith : i + 1 + (it.startOff - (off + i + 1)) = it.startOff - off := by omega
      rw [harith]
  | case2 s off i h hi =>
    have h0 : i = 0 := by omega
    subst h0
    rw [CommaSeparatedParser.go_last_zero off h]
    intro it hit
    simp at hit
    subst hit
    simp
  | case3 s off h =>
    rw [CommaSeparatedParser.go_last_none off h]
    intro it hit
    simp at hit
    subst hit
    simp

/-- No comma sits at the start of the remaining input at any point of the
split loop: the source neither begins with a comma nor contains two adjacent
commas.  Under this condition every comma is a real field boundary. -/
theorem CommaSeparatedParser.go_count (s : List Char) (off : Nat)
    (hhead : s.head? ≠ some ',')
    (hchain : List.Chain' (fun a b => ¬(a = ',' ∧ b = ',')) s) :
    (CommaSeparatedParser.go s off).length = s.count ',' + 1 ∧
    ∀ it ∈ CommaSeparatedParser.go s off, ',' ∉ it.text := by
  induction s, off using CommaSeparatedParser.go.induct with
  | case1 s off i h hi ih =>
    have hdec := jsIndexOf_decomp h
    have htake := jsIndexOf_take h
    have hch2 : List.Chain' (fun a b => ¬(a = ',' ∧ b = ',')) (',' :: s.drop (i + 1)) := by
      rw [hdec] at hchain
      exact (List.chain'_append.mp hchain).2.1
    have hch3 := (List.chain'_cons'.mp hch2).2
    have hhd : (s.drop (i + 1)).head? ≠ some ',' := by
      intro hcon
      have := (List.chain'_cons'.mp hch2).1 ',' hcon
      simp at this
    obtain ⟨ihlen, ihtext⟩ := ih hhd hch3
    have hcount : s.count ',' = (s.drop (i + 1)).count ',' + 1 := by
      conv_lhs => rw [hdec]
      rw [List.count_append]
      rw [List.count_eq_zero.mpr htake]
      simp
    rw [CommaSeparatedParser.go_comma off h hi]
    constructor
    · simp [ihlen, hcount]
    · intro it hit
      rcases List.mem_cons.mp hit with hh | ht
      · subst hh
        simpa using htake
      · exact ihtext it ht
  | case2 s off i h hi =>
    have h0 : i = 0 := by omega
    subst h0
    have := jsIndexOf_get h
    cases s with
    | nil => simp [jsIndexOf] at h
    | cons a t =>
      simp at this
      subst this
      simp at hhead
  | case3 s off h =>
    have hnomem := jsIndexOf_none h
    rw [CommaSeparatedParser.go_last_none off h]
    constructor
    · simp [List.count_eq_zero.mpr hnomem]
    · intro it hit
      simp at hit
      subst hit
      simpa using hnomem

/-- C10: for every source string `s`, the default comma parser returns a
nonempty list of items whose texts, joined with a single comma separator,
reconstruct `s` exactly; the first item's location starts at offset 0, the
last item's location ends at `s.length`, and each item's end offset plus one
equals the next item's start offset. -/
theorem c10_parser_reconstruction (s : List Char) :
    CommaSeparatedParser s ≠ [] ∧
    List.intercalate [','] ((CommaSeparatedParser s).map (·.text)) = s ∧
    ((CommaSeparatedParser s).map (·.startOff)).head? = some 0 ∧
    ((CommaSeparatedParser s).map (·.endOff)).getLast? = some s.length ∧
    List.Chain' (fun a b => b.startOff = a.endOff + 1) (CommaSeparatedParser s) := by
  refine ⟨CommaSeparatedParser.go_ne_nil s 0, CommaSeparatedParser.go_texts s 0,
    CommaSeparatedParser.go_head_start s 0, ?_, CommaSeparatedParser.go_chain s 0⟩
  simpa using CommaSeparatedParser.go_last_end s 0

/-- C3 counterexample: the default comma parser does not trim whitespace
(`" a,b"` yields an item with text `" a"`, which differs from its trimmed
form), and an empty interior field is not represented as a placeholder item
with omitted text (`"a,,b"` yields just two items, the second carrying the
raw text `",b"`). -/
theorem c3_counterexample :
    CommaSeparatedParser (" a,b".toList) =
      [{ text := " a".toList, startOff := 0, endOff := 2 },
       { text := "b".toList, startOff := 3, endOff := 4 }] ∧
    jsTrim (" a".toList) ≠ " a".toList ∧
    CommaSeparatedParser ("a,,b".toList) =
      [{ text := "a".toList, startOff := 0, endOff := 1 },
       { text := ",b".toList, startOff := 2, endOff := 4 }] := by
  refine ⟨?_, by decide, ?_⟩
  · rw [CommaSeparatedParser,
      CommaSeparatedParser.go_comma 0 (show jsIndexOf ',' (" a,b".toList) = some 2 by decide)
        (by decide),
      show (" a,b".toList).drop 3 = "b".toList by decide,
      CommaSeparatedParser.go_last_none 3 (by decide)]
    decide
  · rw [CommaSeparatedParser,
      CommaSeparatedParser.go_comma 0 (show jsIndexOf ',' ("a,,b".toList) = some 1 by decide)
        (by decide),
      show ("a,,b".toList).drop 2 = ",b".toList by decide,
      CommaSeparatedParser.go_last_zero 2 (by decide)]
    decide

/-- C3 amended: the default comma parser performs no trimming; each item's
text is the exact raw slice of the source at the item's recorded location
(so no item's text is ever omitted), and an empty non-trailing field does not
become a placeholder item (a comma at the head of the remaining source stops
the splitting loop instead). -/
theorem c3_amended (s : List Char) :
    ∀ it ∈ CommaSeparatedParser s,
      it.startOff ≤ it.endOff ∧
      it.text = (s.drop it.startOff).take (it.endOff - it.startOff) := by
  intro it hit
  obtain ⟨h1, h2, h3⟩ := CommaSeparatedParser.go_slice s 0 it hit
  refine ⟨h2, ?_⟩
  simpa using h3

theorem c3_amended_witness :
    ({ text := "ab".toList, startOff := 0, endOff := 2 } : CSItem) ∈
        CommaSeparatedParser ("ab".toList) ∧
    ((0 : Nat) ≤ 2 ∧
      "ab".toList = (("ab".toList).drop 0).take (2 - 0)) := by
  have hmem : ({ text := "ab".toList, startOff := 0, endOff := 2 } : CSItem) ∈
      CommaSeparatedParser ("ab".toList) := by
    rw [CommaSeparatedParser, CommaSeparatedParser.go_last_none 0 (by decide)]
    simp
  exact ⟨hmem, c3_amended ("ab".toList) _ hmem⟩

/-- C4 counterexample: on the input `",a"`, which contains one comma and whose
first character is a comma, the default parser returns a single item (not
`1 + 1 = 2`), and that item's text contains the delimiter. -/
theorem c4_counterexample :
    CommaSeparatedParser (",a".toList) =
      [{ text := ",a".toList, startOff := 0, endOff := 2 }] ∧
    (",a".toList).count ',' = 1 ∧
    (CommaSeparatedParser (",a".toList)).length = 1 ∧
    ',' ∈ ",a".toList := by
  have heq : CommaSeparatedParser (",a".toList) =
      [{ text := ",a".toList, startOff := 0, endOff := 2 }] := by
    rw [CommaSeparatedParser, CommaSeparatedParser.go_last_zero 0 (by decide)]
    decide
  refine ⟨heq, by decide, by rw [heq]; rfl, by decide⟩

/-- C4 amended: for every input that does not begin with a comma and has no
two adjacent commas (i.e. no empty non-trailing field), the default parser
returns exactly `n + 1` items for `n` commas, and no item's text contains the
delimiter.  (A leading comma or an empty interior field instead stops the
splitting loop, as the counterexample shows.) -/
theorem c4_amended (s : List Char) (hhead : s.head? ≠ some ',')
    (hchain : List.Chain' (fun a b => ¬(a = ',' ∧ b = ',')) s) :
    (CommaSeparatedParser s).length = s.count ',' + 1 ∧
    ∀ it ∈ CommaSeparatedParser s, ',' ∉ it.text :=
  CommaSeparatedParser.go_count s 0 hhead hchain

theorem c4_amended_witness :
    (("a,b".toList).head? ≠ some ',' ∧
      List.Chain' (fun a b => ¬(a = ',' ∧ b = ',')) ("a,b".toList)) ∧
    ((CommaSeparatedParser ("a,b".toList)).length = ("a,b".toList).count ',' + 1 ∧
      ∀ it ∈ CommaSeparatedParser ("a,b".toList), ',' ∉ it.text) := by
  have hch : List.Chain' (fun a b => ¬(a = ',' ∧ b = ',')) ("a,b".toList) := by
    rw [show ("a,b".toList) = ['a', ',', 'b'] from by decide]
    exact List.chain'_cons.mpr ⟨by decide, List.chain'_cons.mpr ⟨by decide, by simp⟩⟩
  exact ⟨⟨by decide, hch⟩, c4_amended ("a,b".toList) (by decide) hch⟩

/-! ## The badge engine (`BadgeEditable` in `src/index.mjs`)

Badges are `span.badge` elements; the model records, per badge, its
`data-badge-key`, its text content (the FIXMEs in the source assume one text
node per badge, which the model follows), the kind of its first child node
(needed for `splitText` and `Selection.collapse` semantics), and the four
class-list markers the engine toggles. -/

/-- `location.start`/`location.end` of a parsed item as the engine reads them:
either object, or its `offset`, may be absent (`'offset' in loc.end`). -/
structure JsLoc where
  startOff : Option Nat
  endOff : Option Nat
deriving DecidableEq

/-- A parsed item as the engine sees it (`BadgeUserData`): `text` and
`location` may each be absent. -/
structure PItem where
  text : Option (List Char)
  location : Option JsLoc
deriving DecidableEq

/-- JS truthiness of `value.text`: `undefined` and `""` are both falsy. -/
def truthyText : Option (List Char) → Bool
  | some t => !t.isEmpty
  | none => false

/-- `parser.parse`: a thrown exception is `Except.error`, and any element of
the returned array may be `undefined` (`none`). -/
def JsParser : Type := List Char → Except Unit (List (Option PItem))

/-- The engine's default parser wraps `CommaSeparatedParser` (which never
throws and never returns `undefined` entries). -/
def defaultParse : JsParser := fun source =>
  .ok ((CommaSeparatedParser source).map (fun it =>
    some { text := some it.text,
           location := some { startOff := some it.startOff, endOff := some it.endOff } }))

/-- The first child node of a badge element: a text node (holding the badge's
text), an element (the `<br>` sentinel), or nothing. -/
inductive FirstNode | txt | elem | nil
deriving DecidableEq

/-- A `span.badge` element. -/
structure Badge where
  key : Nat
  text : List Char
  firstNode : FirstNode
  emptyCls : Bool
  invalidCls : Bool
  validCls : Bool
  activeCls : Bool
deriving DecidableEq

/-- `BadgeData`: the per-badge record stored in `badgeMap`.  (`sentinal` is
not tracked; see the header note.) -/
structure BadgeData where
  value : Option PItem
  textContent : List Char
  rawText : Option (List Char)
deriving DecidableEq

inductive EvType | add | change | delete
deriving DecidableEq

/-- A `ChangeEvent`; `value`/`previousValue` are `none` when absent. -/
structure Ev where
  type : EvType
  nodeKey : Nat
  value : Option PItem
  previousValue : Option PItem
deriving DecidableEq

/-- The engine state: `element`'s child list, `badgeMap`, `activeNode` (by
key) and `badgeKeySequence`.  Keys are assigned injectively by `makeChild`,
so key lookup models DOM node identity. -/
structure EngineState where
  children : List Badge
  badgeMap : List (Nat × BadgeData)
  activeKey : Option Nat
  keySeq : Nat
deriving DecidableEq

/-- `badgeMap.has(k)`. -/
def mapHas (m : List (Nat × BadgeData)) (k : Nat) : Bool :=
  m.any (fun p => p.1 = k)

/-- `badgeMap.get(k)`. -/
def mapGet? (m : List (Nat × BadgeData)) (k : Nat) : Option BadgeData :=
  (m.find? (fun p => p.1 = k)).map (·.2)

/-- `badgeMap.set(k, d)`. -/
def mapSet (m : List (Nat × BadgeData)) (k : Nat) (d : BadgeData) :
    List (Nat × BadgeData) :=
  if mapHas m k then m.map (fun p => if p.1 = k then (k, d) else p) else m ++ [(k, d)]

/-- `badgeMap.delete(k)`. -/
def mapErase (m : List (Nat × BadgeData)) (k : Nat) : List (Nat × BadgeData) :=
  m.filter (fun p => p.1 ≠ k)

/-- Find the child with badge key `k`. -/
def findBadge? (cs : List Badge) (k : Nat) : Option Badge :=
  cs.find? (fun b => b.key = k)

/-- Apply a mutation to the child with badge key `k`. -/
def updateChild (cs : List Badge) (k : Nat) (f : Badge → Badge) : List Badge :=
  cs.map fun b => if b.key = k then f b else b

def childIdx? (cs : List Badge) (k : Nat) : Option Nat :=
  match cs with
  | [] => none
  | b :: t => if b.key = k then some 0 else (childIdx? t k).map (· + 1)

def listInsertAt (cs : List Badge) (i : Nat) (nb : Badge) : List Badge :=
  cs.take i ++ nb :: cs.drop i

/-- `node.insertAdjacentElement('beforebegin', nb)`. -/
def insertBeforeKey (cs : List Badge) (k : Nat) (nb : Badge) : List Badge :=
  match childIdx? cs k with
  | some i => listInsertAt cs i nb
  | none => cs

/-- `node.insertAdjacentElement('afterend', nb)`. -/
def insertAfterKey (cs : List Badge) (k : Nat) (nb : Badge) : List Badge :=
  match childIdx? cs k with
  | some i => listInsertAt cs (i + 1) nb
  | none => cs

/-- `node.previousElementSibling`. -/
def prevSibling? (cs : List Badge) (k : Nat) : Option Badge :=
  match childIdx? cs k with
  | some (i + 1) => cs.get? i
  | _ => none

/-- `node.nextElementSibling`. -/
def nextSibling? (cs : List Badge) (k : Nat) : Option Badge :=
  match childIdx? cs k with
  | some i => cs.get? (i + 1)
  | none => none

/-- `node.textContent` of the badge with key `k` (empty when absent). -/
def badgeText (s : EngineState) (k : Nat) : List Char :=
  match findBadge? s.children k with
  | some b => b.text
  | none => []

/-- `classList.add/remove('badge-empty')`. -/
def setEmptyCls (k : Nat) (v : Bool) (s : EngineState) : EngineState :=
  { s with children := updateChild s.children k fun b => { b with emptyCls := v } }

/-- `makeChild(content)`: manufactures a badge span with the next key.  JS
truthiness: `null` and `""` both take the `badge-empty` branch; otherwise a
text node holding the content is appended.  The `<br>` sentinel makes the
first child an element when there is no text node. -/
def makeChild (content : Option (List Char)) (s : EngineState) : Badge × EngineState :=
  let key := s.keySeq + 1
  let b0 : Badge := { key := key, text := [], firstNode := .elem,
                      emptyCls := false, invalidCls := false,
                      validCls := false, activeCls := false }
  let b := match content with
    | some t => if t.isEmpty then { b0 with emptyCls := true }
                else { b0 with text := t, firstNode := .txt }
    | none => { b0 with emptyCls := true }
  (b, { s with keySeq := key })

/-- `updateBadge(node, data)`: with data, store it and emit `add`/`change`;
without data, mark invalid and emit `delete` if a value was stored. -/
def updateBadge (k : Nat) (data : Option BadgeData) (s : EngineState) :
    EngineState × List (List Ev) :=
  match data with
  | some d =>
    let e : Ev :=
      match mapGet? s.badgeMap k with
      | some prev => { type := .change, nodeKey := k, value := d.value,
                       previousValue := prev.value }
      | none => { type := .add, nodeKey := k, value := d.value, previousValue := none }
    ({ s with badgeMap := mapSet s.badgeMap k d,
              children := updateChild s.children k fun b =>
                { b with invalidCls := false, validCls := true } },
     [[e]])
  | none =>
    let s := { s with children := updateChild s.children k fun b =>
                { b with validCls := false, invalidCls := true } }
    match mapGet? s.badgeMap k with
    | some prev =>
      ({ s with badgeMap := mapErase s.badgeMap k },
       [[{ type := .delete, nodeKey := k, value := none, previousValue := prev.value }]])
    | none => (s, [])

def hasEmptyBadgeBefore (cs : List Badge) (k : Nat) : Bool :=
  match prevSibling? cs k with
  | some b => b.emptyCls
  | none => false

def hasEmptyBadgeAfter (cs : List Badge) (k : Nat) : Bool :=
  match nextSibling? cs k with
  | some b => b.emptyCls
  | none => false

/-- `enableBadge(node, data)`: always manufactures `before` and `after`
badges (consuming two keys), inserts them only where an empty neighbour is
missing, and returns the (possibly pre-existing) right neighbour.  The
trailing sentinel fix-up of the source is not tracked (header note). -/
def enableBadge (k : Nat) (_data : Option BadgeData) (s : EngineState) :
    EngineState × Nat :=
  let pre := makeChild none s
  let post := makeChild none pre.2
  let s := post.2
  let s := if hasEmptyBadgeBefore s.children k then s
           else { s with children := insertBeforeKey s.children k pre.1 }
  if hasEmptyBadgeAfter s.children k then
    (s, match nextSibling? s.children k with
        | some b => b.key
        | none => post.1.key)
  else
    ({ s with children := insertAfterKey s.children k post.1 }, post.1.key)

/-- `validateBadge(node, data)`: the result Bool is the JS return value. -/
def validateBadge (p : JsParser) (k : Nat) (data : Option BadgeData)
    (s : EngineState) : EngineState × List (List Ev) × Bool :=
  match data with
  | none =>
    let d0 := mapGet? s.badgeMap k
    let tc := badgeText s k
    if (jsTrim tc).isEmpty then
      let s := setEmptyCls k true s
      match d0 with
      | some _ =>
        let r := updateBadge k none s
        (r.1, r.2, false)
      | none => (s, [], false)
    else
      let s := setEmptyCls k false s
      if d0 = none ∨ d0.map (·.textContent) ≠ some tc then
        match p tc with
        | .ok items =>
          match items with
          | [v] =>
            let r := updateBadge k
              (some { value := v, textContent := tc, rawText := none }) s
            (r.1, r.2, true)
          | _ =>
            -- `throw new Error('Illegal argument: ...')`, caught below
            match d0 with
            | some _ =>
              let r := updateBadge k none s
              (r.1, r.2, false)
            | none => (s, [], false)
        | .error _ =>
          match d0 with
          | some _ =>
            let r := updateBadge k none s
            (r.1, r.2, false)
          | none => (s, [], false)
      else (s, [], false)
  | some d =>
    if (jsTrim d.textContent).isEmpty then (setEmptyCls k true s, [], false)
    else (setEmptyCls k false s, [], true)

/-- `deactivateBadge(node, data)`: returns the key of the `enableBadge`
result (`null` when validation failed). -/
def deactivateBadge (p : JsParser) (k : Nat) (data : Option BadgeData)
    (s : EngineState) : EngineState × List (List Ev) × Option Nat :=
  let s := { s with children := updateChild s.children k fun b =>
              { b with activeCls := false } }
  let s := if s.activeKey = some k then { s with activeKey := none } else s
  let (s, evs, ok) := validateBadge p k data s
  if ok then
    let r := enableBadge k data s
    (r.1, evs, some r.2)
  else (s, evs, none)

/-- `window.getSelection().collapse(node.firstChild, c)` throws
`IndexSizeError` when `c` exceeds the first child's DOM length: a text node's
length is its character count, the `<br>` sentinel's length is 0; a null
first child does not throw (collapse(null) removes all ranges). -/
def collapseThrows (s : EngineState) (k : Nat) (c : Nat) : Bool :=
  match findBadge? s.children k with
  | some b =>
    match b.firstNode with
    | .txt => decide (b.text.length < c)
    | .elem => decide (0 < c)
    | .nil => false
  | none => false

/-- `activateBadge(node, collapse)`: the result is
`(state, events, returned-true, threw)`.  A `null` node argument throws
unless it equals the (null) active node; an out-of-range collapse offset
throws after the previous active badge was already deactivated. -/
def activateBadge (p : JsParser) (k? : Option Nat) (collapse : Option Nat)
    (s : EngineState) : EngineState × List (List Ev) × Bool × Bool :=
  if k? = s.activeKey then (s, [], false, false)
  else
    let r :=
      match s.activeKey with
      | some a =>
        let r := deactivateBadge p a none s
        (r.1, r.2.1)
      | none => (s, [])
    let s := r.1
    let evs := r.2
    match k? with
    | none => (s, evs, false, true)
    | some k =>
      let threw := match collapse with
        | some c => collapseThrows s k c
        | none => false
      if threw then (s, evs, false, true)
      else
        let upd : Badge → Badge := fun b => { b with activeCls := true }
        let s := { s with children := updateChild s.children k upd }
        let s := { s with activeKey := some k }
        (s, evs, true, false)

/-- The keydown scratch edit:
`textContent.splice(anchorOffset, focusOffset - anchorOffset, e.key)` on the
anchor node's text.  JS `splice` clamps a negative delete count to 0 and an
out-of-range start to the length, which `Nat` subtraction and `take`/`drop`
reproduce. -/
def jsSpliceChar (t : List Char) (anchorOff focusOff : Nat) (c : Char) : List Char :=
  t.take anchorOff ++ c :: t.drop (max anchorOff focusOff)

/-- `allItems.filter((d, i) => d !== undefined || i === allItems.length - 1)`. -/
def filterKeepLast (xs : List (Option PItem)) : List (Option PItem) :=
  (xs.enum.filter fun pr => pr.2.isSome || pr.1 + 1 = xs.length).map (·.2)

/-- `badge.textContent = t`: replaces all children with a single text node
(no children at all when `t` is empty), destroying the sentinel. -/
def setBadgeTextContent (k : Nat) (t : List Char) (s : EngineState) : EngineState :=
  { s with children := updateChild s.children k fun b =>
      { b with text := t, firstNode := if t.isEmpty then .nil else .txt } }

/-- `badge.firstChild.splitText(offset)` keeps the prefix in the badge (the
detached suffix is returned by the caller separately). -/
def splitTextOff (k : Nat) (off : Nat) (s : EngineState) : EngineState :=
  { s with children := updateChild s.children k fun b =>
      { b with text := b.text.take off } }

/-- `newChild.insertBefore(newText, newChild.firstChild)`: a text node (even
an empty one) becomes the first child. -/
def prependTextNode (k : Nat) (t : List Char) (s : EngineState) : EngineState :=
  { s with children := updateChild s.children k fun b =>
      { b with text := t ++ b.text, firstNode := .txt } }

/-- The catch block of the keydown listener: `updateBadge(badge)` on whatever
node the `badge` variable holds when the exception surfaces. -/
def keydownCatch (badgeVar : Nat) (s : EngineState) (evs : List (List Ev))
    (suppressed : Bool) : EngineState × List (List Ev) × Bool :=
  let r := updateBadge badgeVar none s
  (r.1, evs ++ r.2, suppressed)

/-- The three shapes the `activate` closure can have when it finally runs
(lines 588-593, 602-605 and 635-637 of the source). -/
inductive ActPlan
  | dflt
  | endOfLeft (collapse : Nat) (current : Nat)
  | inRight (collapse : Nat) (current : Nat)
deriving DecidableEq

/-- Run the captured `activate` closure.  `badgeVar`/`dataVar` are the values
of the mutable `badge`/`data` variables at call time.  The Bool reports
whether the closure threw (null dereference or out-of-range collapse). -/
def runActPlan (p : JsParser) (plan : ActPlan) (badgeVar : Nat)
    (dataVar : BadgeData) (s : EngineState) :
    EngineState × List (List Ev) × Bool :=
  match plan with
  | .dflt =>
    match s.activeKey with
    | some a =>
      let r := deactivateBadge p a (some dataVar) s
      let r2 := activateBadge p r.2.2 (some 0) r.1
      (r2.1, r.2.1 ++ r2.2.1, r2.2.2.2)
    | none => (s, [], false)
  | .endOfLeft c cur =>
    let r := deactivateBadge p badgeVar (some dataVar) s
    let r2 := activateBadge p (some cur) (some c) r.1
    (r2.1, r.2.1 ++ r2.2.1, r2.2.2.2)
  | .inRight c cur =>
    let r := activateBadge p (some cur) (some c) s
    (r.1, r.2.1, r.2.2.2)

/-- The common tail of the keydown listener (lines 642-650): the final
`updateBadge` with the current `data`, then the captured `activate` closure,
then either the catch block or a normal suppressed return.  `evsAcc` carries
the batches emitted so far. -/
def keydownFinish (p : JsParser) (nk : Nat) (plan : ActPlan) (d2 : BadgeData)
    (evsAcc : List (List Ev)) (s : EngineState) :
    EngineState × List (List Ev) × Bool :=
  let rC := updateBadge nk (some d2) s
  let rD := runActPlan p plan nk d2 rC.1
  if rD.2.2 then keydownCatch nk rD.1 (evsAcc ++ rC.2 ++ rD.2.1) true
  else (rD.1, evsAcc ++ rC.2 ++ rD.2.1, true)

/-- Lines 609-650 of the keydown listener, from the point where
`deactivateBadge(badge)` has returned a non-null `newChild` (`nk`): move the
split-off text into the right badge, enable it, rebind `data`/`activate`
from `items[1]`, run the final `updateBadge` and the captured `activate`
closure.  `evsAcc` carries the batches emitted so far. -/
def keydownSplitRight (p : JsParser) (nk : Nat) (it1 : PItem) (focusOff : Nat)
    (text : List Char) (plan0 : ActPlan) (newText : List Char)
    (evsAcc : List (List Ev)) (s0 : EngineState) :
    EngineState × List (List Ev) × Bool :=
  let s := prependTextNode nk newText s0
  let dTC2 := badgeText s nk
  let d2a : BadgeData := { value := some it1, textContent := dTC2,
                           rawText := none }
  let rE := enableBadge nk (some d2a) s
  let s := rE.1
  let d2Plan : BadgeData × ActPlan :=
    match it1.location with
    | some loc1 =>
      match loc1.startOff with
      | some st =>
        let d2 := { d2a with rawText := some (text.drop st) }
        match loc1.endOff with
        | some en =>
          if st ≤ focusOff ∧ focusOff ≤ en then
            (d2, .inRight (focusOff + 1 - st) nk)
          else (d2, plan0)
        | none => (d2, plan0)
      | none => (d2a, plan0)
    | none => (d2a, plan0)
  let plan := d2Plan.2
  if truthyText it1.text then
    keydownFinish p nk plan { d2Plan.1 with textContent := it1.text.getD [] }
      evsAcc (setBadgeTextContent nk (it1.text.getD []) s)
  else keydownFinish p nk plan d2Plan.1 evsAcc s

/-- The `items.length > 1` branch of the keydown listener (after
`e.preventDefault()`), including every throw point the surrounding `try`
can catch. -/
def keydownSplit (p : JsParser) (k : Nat) (focusOff : Nat) (text : List Char)
    (items : List (Option PItem)) (s : EngineState) :
    EngineState × List (List Ev) × Bool :=
  match items.get? 0 with
  | some (some it0) =>
    let dTC0 := badgeText s k
    let dRaw0 : Option (List Char) := some text
    match items.get? 1 with
    | some (some it1) =>
      -- lines 596-608: offset selection and the first `activate` rebinding
      let ofsPlan : Nat × ActPlan :=
        match it0.location with
        | some loc =>
          match loc.endOff with
          | some e =>
            if focusOff ≤ e then (e, .endOfLeft (focusOff + 1) k)
            else (e, .dflt)
          | none => (focusOff, .dflt)
        | none => (focusOff, .dflt)
      let offset := ofsPlan.1
      let plan0 := ofsPlan.2
      match findBadge? s.children k with
      | none => keydownCatch k s [] true
      | some b =>
        if b.firstNode ≠ FirstNode.txt ∨ b.text.length < offset then
          -- `badge.firstChild.splitText(offset)` throws: no text-node first
          -- child (TypeError) or offset beyond the text (IndexSizeError)
          keydownCatch k s [] true
        else
          let newText := b.text.drop offset
          let s := splitTextOff k offset s
          let assigned := if truthyText it0.text then it0.text.getD []
                          else text.take offset
          let s := setBadgeTextContent k assigned s
          let dRaw1 := match it1.location with
            | some loc1 =>
              match loc1.startOff with
              | some st => some (text.take st)
              | none => dRaw0
            | none => dRaw0
          let d1 : BadgeData := { value := some it0, textContent := assigned,
                                  rawText := dRaw1 }
          let rA := updateBadge k (some d1) s
          let rB := deactivateBadge p k (some d1) rA.1
          match rB.2.2 with
          | none =>
            -- `newChild.insertBefore(...)` on null throws
            keydownCatch k rB.1 (rA.2 ++ rB.2.1) true
          | some nk => keydownSplitRight p nk it1 focusOff text plan0 newText
              (rA.2 ++ rB.2.1) rB.1
    | _ =>
      -- `items[1] === undefined`: no structural split, lines 642-646 only
      let sd1 :=
        if truthyText it0.text then
          (setBadgeTextContent k (it0.text.getD []) s,
           ({ value := some it0, textContent := it0.text.getD [],
              rawText := dRaw0 } : BadgeData))
        else (s, { value := some it0, textContent := dTC0, rawText := dRaw0 })
      keydownFinish p k .dflt sd1.2 [] sd1.1
  | _ =>
    -- `items[0]` is undefined: `data.value.location` / `data.value.text`
    -- dereferences undefined and throws before any mutation
    keydownCatch k s [] true

/-- `badge.classList.remove('badge-invalid')` at the top of the keydown try
block. -/
def clearInvalid (k : Nat) (s : EngineState) : EngineState :=
  { s with children := updateChild s.children k fun b =>
      { b with invalidCls := false } }

/-- The keydown listener.  `k?` is `getBadgeElement(selection.anchorNode)`
(`none` when the selection is outside every badge; printable single-character
keys only, per the `e.key.length !== 1` guard).  Result:
`(state, emitted batches, whether e.preventDefault() was called)`. -/
def keydown (p : JsParser) (k? : Option Nat) (anchorOff focusOff : Nat)
    (ch : Char) (s : EngineState) : EngineState × List (List Ev) × Bool :=
  match k? with
  | none => (s, [], false)
  | some k =>
    match findBadge? s.children k with
    | none => (s, [], false)
    | some b0 =>
      let text := jsSpliceChar b0.text anchorOff focusOff ch
      match p text with
      | .error _ =>
        -- parsing threw: catch with `badge` still the anchor badge
        let r := updateBadge k none s
        (r.1, r.2, false)
      | .ok allItems =>
        let items := filterKeepLast allItems
        let s := clearInvalid k s
        if 1 < items.length then keydownSplit p k focusOff text items s
        else if items.length ≠ allItems.length then (s, [], true)
        else (s, [], false)

/-- The keyup listener (with `k?` the badge at the selection anchor). -/
def keyupStep (p : JsParser) (k? : Option Nat) (s : EngineState) :
    EngineState × List (List Ev) :=
  match k? with
  | none => (s, [])
  | some k =>
    let r := activateBadge p (some k) none s
    let r2 := validateBadge p k none r.1
    if r2.2.2 then
      let r3 := enableBadge k none r2.1
      (r3.1, r.2.1 ++ r2.2.1)
    else (r2.1, r.2.1 ++ r2.2.1)

/-- The focus listener.  `k?` is the badge enclosing the selection anchor;
when the anchor is outside every badge the engine appends a fresh empty badge
to an empty control and activates the last child (cursor at offset 0).  The
in-badge branch is deferred via `setTimeout` in the source, with ordering
preserved (spec §5), so it is modelled as running immediately. -/
def focusStep (p : JsParser) (k? : Option Nat) (s : EngineState) :
    EngineState × List (List Ev) :=
  match k? with
  | none =>
    let s :=
      if s.children.isEmpty then
        let r := makeChild none s
        { r.2 with children := r.2.children ++ [r.1] }
      else s
    match s.children.getLast? with
    | some lastB =>
      let r := activateBadge p (some lastB.key) (some 0) s
      (r.1, r.2.1)
    | none => (s, [])
  | some k =>
    let r := activateBadge p (some k) none s
    (r.1, r.2.1)

/-- The blur listener: commit the active badge, if any. -/
def blurStep (p : JsParser) (s : EngineState) : EngineState × List (List Ev) :=
  match s.activeKey with
  | some a =>
    let r := deactivateBadge p a none s
    (r.1, r.2.1)
  | none => (s, [])

/-- `value.toString()` for an item without a `text` field. -/
def objectToString : List Char := "[object Object]".toList

/-- The delete phase of the value setter: `this.forEach` walks the live
`element.children` collection by index while the callback removes every
map-carrying child, so each removal shifts the later siblings one slot
left and the element now at the loop index is skipped. -/
def deleteLoop (m : List (Nat × BadgeData)) (cs : List Badge) (i : Nat) :
    List Ev × List Badge :=
  if h : i < cs.length then
    let c := cs.get ⟨i, h⟩
    if mapHas m c.key then
      let ev : Ev := { type := .delete, nodeKey := c.key, value := none,
                       previousValue := match mapGet? m c.key with
                         | some d => d.value
                         | none => none }
      let r := deleteLoop m (cs.eraseIdx i) (i + 1)
      (ev :: r.1, r.2)
    else deleteLoop m cs (i + 1)
  else ([], cs)
termination_by cs.length - i
decreasing_by
  · rw [List.length_eraseIdx_of_lt h]
    omega
  · omega

/-- The body of the `value.forEach` loop in the value setter: manufacture,
label, append, store and flank one badge per assigned item. -/
def addOneValue (acc : EngineState × List Ev) (v : PItem) :
    EngineState × List Ev :=
  let s := acc.1
  let tc := match v.text with
    | some t => t
    | none => objectToString
  let r := makeChild (some tc) s
  let node := { r.1 with invalidCls := false, validCls := true }
  let s := { r.2 with children := r.2.children ++ [node] }
  let d : BadgeData := { value := some v, textContent := tc, rawText := none }
  let s := { s with badgeMap := mapSet s.badgeMap node.key d }
  let rE := enableBadge node.key (some d) s
  (rE.1, acc.2 ++ [{ type := .add, nodeKey := node.key, value := some v,
                     previousValue := none }])

/-- The `value` setter (`replaceAll`): delete every reachable content badge,
clear the map, drop the `badge-empty` children, then add one badge per item;
the whole diff is emitted as a single batch. -/
def valueSetter (items : List PItem) (s : EngineState) :
    EngineState × List (List Ev) :=
  let del := deleteLoop s.badgeMap s.children 0
  let s := { s with children := del.2, badgeMap := [] }
  let s := { s with children := s.children.filter fun b => !b.emptyCls }
  let fin := items.foldl addOneValue (s, [])
  (fin.1, [del.1 ++ fin.2])

/-- The `textContent` setter: parse, drop `undefined` entries, assign via the
`value` setter.  A parse error propagates to the assigning caller before any
mutation. -/
def textContentSetter (p : JsParser) (tc : List Char) (s : EngineState) :
    EngineState × List (List Ev) :=
  match p tc with
  | .ok allItems => valueSetter (allItems.filterMap id) s
  | .error _ => (s, [])

/-- `forEach` (read-only use): the values and keys the callback receives, in
child order, skipping children without a map entry. -/
def forEachCollect (s : EngineState) : List (Option PItem × Nat) :=
  s.children.filterMap fun c =>
    (mapGet? s.badgeMap c.key).map fun d => (d.value, c.key)

/-- The `length` getter: `badgeMap.size` (the map's keys stay distinct). -/
def controlLength (s : EngineState) : Nat := s.badgeMap.length

/-- One externally observable engine operation. -/
inductive Op
  | keyEdit (k? : Option Nat) (anchorOff focusOff : Nat) (ch : Char)
  | keyLift (k? : Option Nat)
  | focusEv (k? : Option Nat)
  | blurEv
  | setValue (items : List PItem)
  | setText (tc : List Char)
deriving DecidableEq

def stepOp (p : JsParser) (s : EngineState) (op : Op) : EngineState :=
  match op with
  | .keyEdit k? a f ch => (keydown p k? a f ch s).1
  | .keyLift k? => (keyupStep p k? s).1
  | .focusEv k? => (focusStep p k? s).1
  | .blurEv => (blurStep p s).1
  | .setValue items => (valueSetter items s).1
  | .setText tc => (textContentSetter p tc s).1

def runOps (p : JsParser) (ops : List Op) (s : EngineState) : EngineState :=
  ops.foldl (stepOp p) s

/-! ## Claim proofs about the engine -/

theorem findBadge?_updateChild {cs : List Badge} {k' k : Nat} {f : Badge → Badge}
    (hf : ∀ b, (f b).key = b.key) :
    findBadge? (updateChild cs k' f) k =
      (findBadge? cs k).map (fun b => if b.key = k' then f b else b) := by
  have hg : ∀ b : Badge, ((if b.key = k' then f b else b) : Badge).key = b.key := by
    intro b
    by_cases h : b.key = k'
    · simp [h, hf]
    · simp [h]
  unfold findBadge? updateChild
  rw [List.find?_map]
  have hp : ((fun b : Badge => decide (b.key = k)) ∘ fun b => if b.key = k' then f b else b)
      = fun b : Badge => decide (b.key = k) := by
    funext b
    simp only [Function.comp_apply, hg b]
  rw [hp]

theorem findBadge?_key {cs : List Badge} {k : Nat} {b : Badge}
    (h : findBadge? cs k = some b) : b.key = k := by
  have := List.find?_some h
  simpa using this

/-- C7: a second `commit` (deactivation) of an already committed badge with
unchanged text emits no `ChangeEvent` and leaves the stored map untouched:
`validateBadge` sees the stored `textContent` equal to the badge's current
text and returns without re-parsing or updating. -/
theorem c7_commit_idempotent (p : JsParser) (s : EngineState) (k : Nat)
    (b : Badge) (d : BadgeData)
    (hb : findBadge? s.children k = some b)
    (hd : mapGet? s.badgeMap k = some d)
    (htc : d.textContent = b.text)
    (hne : (jsTrim b.text).isEmpty = false) :
    (deactivateBadge p k none s).2.1 = [] ∧
    (deactivateBadge p k none s).1.badgeMap = s.badgeMap := by
  have hkey := findBadge?_key hb
  simp only [deactivateBadge]
  have hf : ∀ bb : Badge, ({ bb with activeCls := false } : Badge).key = bb.key :=
    fun bb => rfl
  set s1 : EngineState :=
    { s with children := updateChild s.children k fun bb => { bb with activeCls := false } }
    with hs1
  have hb1 : findBadge? s1.children k = some { b with activeCls := false } := by
    rw [hs1]
    simp only [findBadge?_updateChild hf, hb]
    simp [hkey]
  set s2 : EngineState := if s1.activeKey = some k then { s1 with activeKey := none } else s1
    with hs2
  have hb2 : findBadge? s2.children k = some { b with activeCls := false } := by
    rw [hs2]
    split <;> simpa using hb1
  have hm2 : s2.badgeMap = s.badgeMap := by
    rw [hs2]
    split <;> rfl
  have htext2 : badgeText s2 k = b.text := by
    simp [badgeText, hb2]
  have hval : validateBadge p k none s2 =
      (setEmptyCls k false s2, [], false) := by
    simp only [validateBadge]
    rw [htext2, hm2, hd, hne]
    simp [htc]
  rw [hval]
  simp [setEmptyCls, hm2]

/-- Concrete fixture: a committed `"foo"` badge. -/
def wBadge : Badge :=
  { key := 1, text := "foo".toList, firstNode := .txt, emptyCls := false,
    invalidCls := false, validCls := true, activeCls := false }

def wItem : PItem :=
  { text := some "foo".toList,
    location := some { startOff := some 0, endOff := some 3 } }

def wData : BadgeData :=
  { value := some wItem, textContent := "foo".toList, rawText := none }

def wState : EngineState :=
  { children := [wBadge], badgeMap := [(1, wData)], activeKey := none, keySeq := 1 }

theorem c7_commit_idempotent_witness :
    (findBadge? wState.children 1 = some wBadge ∧
     mapGet? wState.badgeMap 1 = some wData ∧
     wData.textContent = wBadge.text ∧
     (jsTrim wBadge.text).isEmpty = false) ∧
    ((deactivateBadge defaultParse 1 none wState).2.1 = [] ∧
     (deactivateBadge defaultParse 1 none wState).1.badgeMap = wState.badgeMap) :=
  ⟨⟨by decide, by decide, by decide, by decide⟩,
   c7_commit_idempotent defaultParse wState 1 wBadge wData (by decide) (by decide)
     (by decide) (by decide)⟩

theorem updateBadge_none_children (k : Nat) (s : EngineState) :
    (updateBadge k none s).1.children =
      updateChild s.children k
        (fun b => { b with validCls := false, invalidCls := true }) := by
  simp only [updateBadge]
  cases h : mapGet? s.badgeMap k <;> simp [h]

theorem mapHas_erase (m : List (Nat × BadgeData)) (k : Nat) :
    mapHas (mapErase m k) k = false := by
  simp [mapHas, mapErase, List.any_eq_true, List.mem_filter]

theorem mapHas_eq_false_of_get_none {m : List (Nat × BadgeData)} {k : Nat}
    (h : mapGet? m k = none) : mapHas m k = false := by
  simp only [mapGet?, Option.map_eq_none'] at h
  rw [List.find?_eq_none] at h
  simp only [mapHas]
  rw [List.any_eq_false]
  intro p hp
  simpa using h p hp

theorem updateBadge_none_mapHas (k : Nat) (s : EngineState) :
    mapHas (updateBadge k none s).1.badgeMap k = false := by
  simp only [updateBadge]
  cases h : mapGet? s.badgeMap k with
  | none => simpa using mapHas_eq_false_of_get_none h
  | some prev => simpa using mapHas_erase s.badgeMap k

theorem updateBadge_none_events (k : Nat) (s : EngineState) :
    (updateBadge k none s).2 =
      (match mapGet? s.badgeMap k with
       | some prev => [[{ type := .delete, nodeKey := k, value := none,
                          previousValue := prev.value }]]
       | none => ([] : List (List Ev))) := by
  simp only [updateBadge]
  cases h : mapGet? s.badgeMap k <;> simp [h]

/-- C8: when re-parsing the speculative single-character edit throws, the
keydown listener's catch marks the anchor badge `badge-invalid`, clears any
stored value (emitting exactly one `delete`, and only when a value existed),
leaves the badge's text untouched, and does not suppress the host input
event; the listener returns normally, so no error crosses the boundary. -/
theorem c8_parse_error (p : JsParser) (s : EngineState) (k : Nat) (b : Badge)
    (anchorOff focusOff : Nat) (ch : Char)
    (hb : findBadge? s.children k = some b)
    (herr : p (jsSpliceChar b.text anchorOff focusOff ch) = .error ()) :
    keydown p (some k) anchorOff focusOff ch s =
      ((updateBadge k none s).1, (updateBadge k none s).2, false) ∧
    findBadge? (keydown p (some k) anchorOff focusOff ch s).1.children k =
      some { b with validCls := false, invalidCls := true } ∧
    mapHas (keydown p (some k) anchorOff focusOff ch s).1.badgeMap k = false ∧
    (keydown p (some k) anchorOff focusOff ch s).2.1 =
      (match mapGet? s.badgeMap k with
       | some prev => [[{ type := .delete, nodeKey := k, value := none,
                          previousValue := prev.value }]]
       | none => ([] : List (List Ev))) := by
  have hkey := findBadge?_key hb
  have hrun : keydown p (some k) anchorOff focusOff ch s =
      ((updateBadge k none s).1, (updateBadge k none s).2, false) := by
    simp only [keydown, hb, herr]
  refine ⟨hrun, ?_, ?_, ?_⟩
  · rw [hrun]
    simp only [updateBadge_none_children]
    rw [@findBadge?_updateChild s.children k k
        (fun bb => { bb with validCls := false, invalidCls := true })
        (fun bb => rfl), hb]
    simp [hkey]
  · rw [hrun]
    simpa using updateBadge_none_mapHas k s
  · rw [hrun]
    simpa using updateBadge_none_events k s

/-- A parser that always throws. -/
def throwParse : JsParser := fun _ => .error ()

theorem c8_parse_error_witness :
    (findBadge? wState.children 1 = some wBadge ∧
     throwParse (jsSpliceChar wBadge.text 3 3 ',') = .error ()) ∧
    (keydown throwParse (some 1) 3 3 ',' wState =
      ((updateBadge 1 none wState).1, (updateBadge 1 none wState).2, false) ∧
     findBadge? (keydown throwParse (some 1) 3 3 ',' wState).1.children 1 =
      some { wBadge with validCls := false, invalidCls := true } ∧
     mapHas (keydown throwParse (some 1) 3 3 ',' wState).1.badgeMap 1 = false ∧
     (keydown throwParse (some 1) 3 3 ',' wState).2.1 =
      (match mapGet? wState.badgeMap 1 with
       | some prev => [[{ type := .delete, nodeKey := 1, value := none,
                          previousValue := prev.value }]]
       | none => ([] : List (List Ev)))) :=
  ⟨⟨by decide, rfl⟩,
   c8_parse_error throwParse wState 1 wBadge 3 3 ',' (by decide) rfl⟩

/-- Concrete fixture for C2: an active badge whose text has been emptied
while a stored value is still present. -/
def c2State : EngineState :=
  { children := [{ key := 1, text := [], firstNode := .nil, emptyCls := false,
                   invalidCls := false, validCls := true, activeCls := true }],
    badgeMap := [(1, wData)], activeKey := some 1, keySeq := 1 }

/-- C2 counterexample: committing (deactivating) a badge whose trimmed text
is empty but which still holds a stored value marks it `badge-invalid`
(alongside `badge-empty`): `validateBadge`'s empty branch calls
`updateBadge(node)` to clear the stale value, and that call unconditionally
adds the `badge-invalid` class.  This refutes "a segment whose trimmed text
is empty is never marked 'invalid'". -/
theorem c2_counterexample :
    jsTrim (badgeText c2State 1) = [] ∧
    (findBadge? c2State.children 1).map (·.invalidCls) = some false ∧
    (findBadge? (deactivateBadge throwParse 1 none c2State).1.children 1).map
        (·.invalidCls) = some true ∧
    (findBadge? (deactivateBadge throwParse 1 none c2State).1.children 1).map
        (·.emptyCls) = some true ∧
    (deactivateBadge throwParse 1 none c2State).2.1 =
      [[{ type := .delete, nodeKey := 1, value := none,
          previousValue := wData.value }]] := by
  decide

/-- C2 amended: validating a segment whose trimmed text is empty always adds
`badge-empty` and returns false, and it marks the segment `badge-invalid`
exactly when a stored value still existed (the value-clearing
`updateBadge(node)` call adds the class as it deletes the value and emits the
`delete`); with no stored value the invalid marker is left as it was, and in
either case no value remains stored afterwards. -/
theorem c2_empty_validation (p : JsParser) (s : EngineState) (k : Nat)
    (b : Badge)
    (hb : findBadge? s.children k = some b)
    (hemp : (jsTrim b.text).isEmpty = true) :
    (validateBadge p k none s).2.2 = false ∧
    (findBadge? (validateBadge p k none s).1.children k).map (·.emptyCls) =
      some true ∧
    (findBadge? (validateBadge p k none s).1.children k).map (·.invalidCls) =
      some (match mapGet? s.badgeMap k with
            | some _ => true
            | none => b.invalidCls) ∧
    mapHas (validateBadge p k none s).1.badgeMap k = false ∧
    (validateBadge p k none s).2.1 =
      (match mapGet? s.badgeMap k with
       | some d => [[{ type := .delete, nodeKey := k, value := none,
                       previousValue := d.value }]]
       | none => ([] : List (List Ev))) := by
  have hkey := findBadge?_key hb
  have htext : badgeText s k = b.text := by simp [badgeText, hb]
  have hb1 : findBadge? (setEmptyCls k true s).children k =
      some { b with emptyCls := true } := by
    simp only [setEmptyCls]
    rw [@findBadge?_updateChild s.children k k
        (fun bb => { bb with emptyCls := true }) (fun bb => rfl), hb]
    simp [hkey]
  have hm1 : (setEmptyCls k true s).badgeMap = s.badgeMap := rfl
  cases hd : mapGet? s.badgeMap k with
  | none =>
    have hval : validateBadge p k none s = (setEmptyCls k true s, [], false) := by
      simp only [validateBadge]
      rw [htext, hd, hemp]
      simp
    rw [hval]
    refine ⟨rfl, by simp [hb1], by simp [hb1, hd], ?_, by simp [hd]⟩
    rw [hm1]
    exact mapHas_eq_false_of_get_none hd
  | some d =>
    have hval : validateBadge p k none s =
        ((updateBadge k none (setEmptyCls k true s)).1,
         (updateBadge k none (setEmptyCls k true s)).2, false) := by
      simp only [validateBadge]
      rw [htext, hd, hemp]
      simp
    rw [hval]
    have hch : findBadge?
        (updateBadge k none (setEmptyCls k true s)).1.children k =
        some { b with emptyCls := true, validCls := false, invalidCls := true } := by
      rw [updateBadge_none_children]
      rw [@findBadge?_updateChild (setEmptyCls k true s).children k k
          (fun bb => { bb with validCls := false, invalidCls := true })
          (fun bb => rfl), hb1]
      simp [hkey]
    refine ⟨rfl, by simp [hch], by simp [hch, hd], ?_, ?_⟩
    · simpa using updateBadge_none_mapHas k (setEmptyCls k true s)
    · have := updateBadge_none_events k (setEmptyCls k true s)
      rw [hm1, hd] at this
      simpa [hd] using this

theorem c2_empty_validation_witness :
    (findBadge? c2State.children 1 =
      some { key := 1, text := [], firstNode := .nil, emptyCls := false,
             invalidCls := false, validCls := true, activeCls := true } ∧
     (jsTrim ([] : List Char)).isEmpty = true) ∧
    ((validateBadge throwParse 1 none c2State).2.2 = false ∧
     (findBadge? (validateBadge throwParse 1 none c2State).1.children 1).map
        (·.emptyCls) = some true ∧
     (findBadge? (validateBadge throwParse 1 none c2State).1.children 1).map
        (·.invalidCls) =
      some (match mapGet? c2State.badgeMap 1 with
            | some _ => true
            | none => false) ∧
     mapHas (validateBadge throwParse 1 none c2State).1.badgeMap 1 = false ∧
     (validateBadge throwParse 1 none c2State).2.1 =
      (match mapGet? c2State.badgeMap 1 with
       | some d => [[{ type := .delete, nodeKey := 1, value := none,
                       previousValue := d.value }]]
       | none => ([] : List (List Ev)))) :=
  ⟨⟨by decide, by decide⟩,
   c2_empty_validation throwParse c2State 1
     { key := 1, text := [], firstNode := .nil, emptyCls := false,
       invalidCls := false, validCls := true, activeCls := true }
     (by decide) (by decide)⟩

/-- Named evaluation of the default parser on `"foo,"`. -/
theorem csp_foo_eval : CommaSeparatedParser ("foo,".toList) =
    [{ text := "foo".toList, startOff := 0, endOff := 3 },
     { text := [], startOff := 4, endOff := 4 }] := by
  rw [CommaSeparatedParser,
    CommaSeparatedParser.go_comma 0
      (show jsIndexOf ',' ("foo,".toList) = some 3 by decide) (by decide)]
  rw [show ("foo,".toList).drop 4 = [] by decide,
    CommaSeparatedParser.go_last_none 4 (by decide)]
  decide

/-- The two items the default parser yields for `"foo,"`. -/
def c1Item0 : PItem :=
  { text := some "foo".toList,
    location := some { startOff := some 0, endOff := some 3 } }

def c1Item1 : PItem :=
  { text := some [], location := some { startOff := some 4, endOff := some 4 } }

/-- A concrete parser table that agrees with the default comma parser on the
scratch text of the C1 scenario (see `c1Parser_agrees`); a table keeps the
whole run kernel-computable. -/
def c1Parser : JsParser := fun t =>
  if t = "foo,".toList then .ok [some c1Item0, some c1Item1]
  else .ok [some { text := some t,
                   location := some { startOff := some 0, endOff := some t.length } }]

theorem c1Parser_agrees : c1Parser ("foo,".toList) = defaultParse ("foo,".toList) := by
  show _ = Except.ok ((CommaSeparatedParser ("foo,".toList)).map _)
  rw [csp_foo_eval]
  rfl

def c1EmptyBadge (k : Nat) : Badge :=
  { key := k, text := [], firstNode := .elem, emptyCls := true,
    invalidCls := false, validCls := false, activeCls := false }

def c1Active : Badge :=
  { key := 2, text := "foo".toList, firstNode := .txt, emptyCls := false,
    invalidCls := false, validCls := true, activeCls := true }

def c1Data : BadgeData :=
  { value := some c1Item0, textContent := "foo".toList, rawText := none }

/-- The canonical split scenario of the spec: an active `"foo"` badge flanked
by empty badges, either already committed (`committed = true`, map entry
present) or not, cursor at the end, about to receive a `','`. -/
def c1StateG (committed : Bool) : EngineState :=
  { children := [c1EmptyBadge 1, c1Active, c1EmptyBadge 3],
    badgeMap := if committed then [(2, c1Data)] else [],
    activeKey := some 2, keySeq := 3 }

def c1State : EngineState := c1StateG true

/-- C1 counterexample: typing `','` at the end of the committed active badge
`"foo"` (its parse yielding exactly the two filtered items
`["foo", ""]`) does NOT emit one `change` plus one `add` as a single batch
with the content count up by one.  The engine emits three singleton batches —
`change` (left), `add` (right), then `delete` (right) — because restoring the
cursor calls `Selection.collapse` with offset `focusOffset + 1 = 4` on the
left badge's 3-character text node, which throws, and the catch block
invalidates the right badge and deletes its just-stored value; the content
count is unchanged. -/
theorem c1_counterexample :
    (keydown c1Parser (some 2) 3 3 ',' c1State).2.2 = true ∧
    (keydown c1Parser (some 2) 3 3 ',' c1State).2.1 =
      [[{ type := .change, nodeKey := 2, value := some c1Item0,
          previousValue := some c1Item0 }],
       [{ type := .add, nodeKey := 3, value := some c1Item1,
          previousValue := none }],
       [{ type := .delete, nodeKey := 3, value := none,
          previousValue := some c1Item1 }]] ∧
    controlLength (keydown c1Parser (some 2) 3 3 ',' c1State).1 =
      controlLength c1State := by
  decide

/-- C1 amended: in the canonical split scenario (active `"foo"` badge, cursor
at the end, typing the delimiter so the parse yields exactly two filtered
items), the engine suppresses the host input event and splits at the first
item's end offset (the left badge keeps text `"foo"`, a right badge appears
after it, flanked by freshly inserted empty badges), but the diff is emitted
as three single-event arrays — `change` (or `add`, when the left badge had no
stored value) for the left badge, `add` for the right badge, then `delete`
for the right badge, the last caused by the out-of-range cursor-restore
collapse being caught — and afterwards only the left badge's value is stored,
so the content-segment count ends at 1 regardless of whether the left badge
was previously committed. -/
theorem c1_split_behavior (committed : Bool) :
    (keydown c1Parser (some 2) 3 3 ',' (c1StateG committed)).2.2 = true ∧
    (keydown c1Parser (some 2) 3 3 ',' (c1StateG committed)).2.1 =
      [[{ type := if committed then .change else .add, nodeKey := 2,
          value := some c1Item0,
          previousValue := if committed then some c1Item0 else none }],
       [{ type := .add, nodeKey := 3, value := some c1Item1,
          previousValue := none }],
       [{ type := .delete, nodeKey := 3, value := none,
          previousValue := some c1Item1 }]] ∧
    ((keydown c1Parser (some 2) 3 3 ',' (c1StateG committed)).1.children.map
      (·.key)) = [1, 2, 6, 3, 7] ∧
    (findBadge? (keydown c1Parser (some 2) 3 3 ','
        (c1StateG committed)).1.children 2).map (·.text) =
      some "foo".toList ∧
    (findBadge? (keydown c1Parser (some 2) 3 3 ','
        (c1StateG committed)).1.children 3).map (·.invalidCls) = some true ∧
    mapHas (keydown c1Parser (some 2) 3 3 ','
        (c1StateG committed)).1.badgeMap 3 = false ∧
    controlLength (keydown c1Parser (some 2) 3 3 ',' (c1StateG committed)).1 = 1 := by
  cases committed <;> decide

/-! ### Helper lemmas for the value setter (C5, C6) -/

theorem childIdx?_append_left {l1 l2 : List Badge} {k : Nat}
    (h : ∀ b ∈ l1, b.key ≠ k) :
    childIdx? (l1 ++ l2) k = (childIdx? l2 k).map (· + l1.length) := by
  induction l1 with
  | nil => simp [Option.map_id']
  | cons c t ih =>
    have hc : c.key ≠ k := h c (by simp)
    simp only [List.cons_append, childIdx?, List.append_eq]
    rw [if_neg hc, ih (fun b hb => h b (by simp [hb]))]
    cases childIdx? l2 k <;> simp
    omega

theorem childIdx?_append_node {cs : List Badge} {node : Badge} {k : Nat}
    (hk : node.key = k) (hfresh : ∀ b ∈ cs, b.key ≠ k) :
    childIdx? (cs ++ [node]) k = some cs.length := by
  rw [childIdx?_append_left hfresh]
  simp [childIdx?, hk]

theorem prevSibling?_append_node {cs : List Badge} {node : Badge} {k : Nat}
    (hk : node.key = k) (hfresh : ∀ b ∈ cs, b.key ≠ k) :
    prevSibling? (cs ++ [node]) k = cs.getLast? := by
  unfold prevSibling?
  rw [childIdx?_append_node hk hfresh]
  cases cs with
  | nil => simp
  | cons c t =>
    simp only [List.length_cons]
    rw [List.get?_append (by simp)]
    rw [List.getLast?_eq_get? ]
    simp

theorem nextSibling?_append_node {cs : List Badge} {node : Badge} {k : Nat}
    (hk : node.key = k) (hfresh : ∀ b ∈ cs, b.key ≠ k) :
    nextSibling? (cs ++ [node]) k = none := by
  unfold nextSibling?
  rw [childIdx?_append_node hk hfresh]
  rw [List.get?_eq_none]
  simp

theorem listInsertAt_length (cs : List Badge) (nb : Badge) :
    listInsertAt cs cs.length nb = cs ++ [nb] := by
  simp [listInsertAt]

theorem insertAfterKey_append_node {cs : List Badge} {node post : Badge} {k : Nat}
    (hk : node.key = k) (hfresh : ∀ b ∈ cs, b.key ≠ k) :
    insertAfterKey (cs ++ [node]) k post = cs ++ [node, post] := by
  unfold insertAfterKey
  rw [childIdx?_append_node hk hfresh]
  show listInsertAt (cs ++ [node]) (cs.length + 1) post = cs ++ [node, post]
  have h1 : cs.length + 1 = (cs ++ [node]).length := by simp
  rw [h1, listInsertAt_length]
  simp

theorem insertBeforeKey_append_node {cs : List Badge} {node pre : Badge} {k : Nat}
    (hk : node.key = k) (hfresh : ∀ b ∈ cs, b.key ≠ k) :
    insertBeforeKey (cs ++ [node]) k pre = cs ++ pre :: [node] := by
  unfold insertBeforeKey
  rw [childIdx?_append_node hk hfresh]
  simp [listInsertAt, List.take_append_of_le_length, List.drop_append_of_le_length]

/-- The delete event the value setter pushes for a content child. -/
def delEvOf (m : List (Nat × BadgeData)) (c : Badge) : Ev :=
  { type := .delete, nodeKey := c.key, value := none,
    previousValue := match mapGet? m c.key with
      | some d => d.value
      | none => none }

theorem deleteLoop_atEnd (m : List (Nat × BadgeData)) (cs : List Badge) (i : Nat)
    (h : ¬ i < cs.length) : deleteLoop m cs i = ([], cs) := by
  unfold deleteLoop
  rw [dif_neg h]

theorem eraseIdx_append_cons (pre : List Badge) (c : Badge) (t : List Badge) :
    (pre ++ c :: t).eraseIdx pre.length = pre ++ t := by
  induction pre with
  | nil => simp
  | cons p ps ih => simp [List.eraseIdx, ih]

theorem get_append_boundary (pre : List Badge) (c : Badge) (t : List Badge)
    (h : pre.length < (pre ++ c :: t).length) :
    (pre ++ c :: t).get ⟨pre.length, h⟩ = c := by
  rw [List.get_eq_getElem, List.getElem_append_right (Nat.le_refl pre.length)]
  simp

/-- The live-`HTMLCollection` loop, specified: with a processed prefix of
non-content children and no two adjacent content children in the rest, the
loop deletes exactly the content children of the rest, in order.  (When two
content children are adjacent, the removal shift would make the loop skip
the second — which the store's flanking invariant rules out.) -/
theorem deleteLoop_go (m : List (Nat × BadgeData)) :
    ∀ (n : Nat) (rest pre : List Badge), rest.length ≤ n →
    (∀ b ∈ pre, mapHas m b.key = false) →
    List.Chain' (fun a b => ¬(mapHas m a.key = true ∧ mapHas m b.key = true)) rest →
    deleteLoop m (pre ++ rest) pre.length =
      ((rest.filter fun c => mapHas m c.key).map (delEvOf m),
       pre ++ rest.filter fun c => !mapHas m c.key) := by
  intro n
  induction n with
  | zero =>
    intro rest pre hlen hpre hchain
    have hnil : rest = [] := List.length_eq_zero.mp (Nat.le_zero.mp hlen)
    subst hnil
    rw [deleteLoop_atEnd m (pre ++ []) pre.length (by simp)]
    simp
  | succ n ih =>
    intro rest pre hlen hpre hchain
    cases rest with
    | nil =>
      rw [deleteLoop_atEnd m (pre ++ []) pre.length (by simp)]
      simp
    | cons c t =>
      have hlt : pre.length < (pre ++ c :: t).length := by simp
      conv_lhs => unfold deleteLoop
      rw [dif_pos hlt]
      simp only [get_append_boundary pre c t hlt]
      by_cases hc : mapHas m c.key
      · rw [if_pos hc]
        rw [eraseIdx_append_cons]
        cases t with
        | nil =>
          rw [show pre.length + 1 = (pre ++ ([] : List Badge)).length + 1 by simp]
          rw [deleteLoop_atEnd m (pre ++ []) _ (by simp)]
          simp [delEvOf, hc]
        | cons t0 t' =>
          have ht0 : mapHas m t0.key = false := by
            have := List.chain'_cons.mp hchain
            rcases this with ⟨hrel, _⟩
            by_contra hcon
            exact hrel ⟨hc, by simpa using hcon⟩
          have hchain' :
              List.Chain' (fun a b => ¬(mapHas m a.key = true ∧ mapHas m b.key = true)) t' :=
            ((List.chain'_cons.mp hchain).2).tail
          have hsplit : pre ++ t0 :: t' = (pre ++ [t0]) ++ t' := by simp
          have hplen : pre.length + 1 = (pre ++ [t0]).length := by simp
          rw [hsplit, hplen]
          rw [ih t' (pre ++ [t0])
            (by simp at hlen ⊢; omega)
            (by intro b hb
                rcases List.mem_append.mp hb with h1 | h2
                · exact hpre b h1
                · simp at h2
                  subst h2
                  exact ht0)
            hchain']
          simp [hc, ht0, delEvOf]
      · rw [if_neg hc]
        have hsplit : pre ++ c :: t = (pre ++ [c]) ++ t := by simp
        have hplen : pre.length + 1 = (pre ++ [c]).length := by simp
        rw [hsplit, hplen]
        rw [ih t (pre ++ [c])
          (by simp at hlen ⊢; omega)
          (by intro b hb
              rcases List.mem_append.mp hb with h1 | h2
              · exact hpre b h1
              · simp at h2
                subst h2
                simpa using hc)
          (List.Chain'.tail hchain)]
        simp [hc]

/-- The badge `makeChild(null)` (or `makeChild("")`) manufactures. -/
def freshEmptyBadge (k : Nat) : Badge :=
  { key := k, text := [], firstNode := .elem, emptyCls := true,
    invalidCls := false, validCls := false, activeCls := false }

/-- The `BadgeData` the value setter stores for an assigned item. -/
def dataOf (v : PItem) : BadgeData :=
  { value := some v,
    textContent := match v.text with
      | some t => t
      | none => objectToString,
    rawText := none }

/-- The content badge the value setter appends for an assigned item. -/
def contentNode (key : Nat) (v : PItem) : Badge :=
  let tc : List Char := match v.text with
    | some t => t
    | none => objectToString
  { key := key, text := if tc.isEmpty then [] else tc,
    firstNode := if tc.isEmpty then .elem else .txt,
    emptyCls := tc.isEmpty, invalidCls := false, validCls := true,
    activeCls := false }

theorem mapGet?_append_ne {m : List (Nat × BadgeData)} {key k : Nat}
    {d : BadgeData} (h : k ≠ key) :
    mapGet? (m ++ [(key, d)]) k = mapGet? m k := by
  induction m with
  | nil =>
    simp only [List.nil_append, mapGet?, List.find?]
    rw [show (decide (key = k)) = false from by simpa using fun hq => h hq.symm]
  | cons p ps ih =>
    by_cases hp : p.1 = k
    · simp [mapGet?, List.find?, hp]
    · simp only [mapGet?, List.cons_append, List.find?] at ih ⊢
      rw [show (decide (p.1 = k)) = false by simpa using hp]
      exact ih

theorem mapGet?_append_fresh {m : List (Nat × BadgeData)} {key : Nat}
    {d : BadgeData} (h : ∀ pr ∈ m, pr.1 ≠ key) :
    mapGet? (m ++ [(key, d)]) key = some d := by
  induction m with
  | nil => simp [mapGet?, List.find?]
  | cons p ps ih =>
    have hp : p.1 ≠ key := h p (by simp)
    simp only [mapGet?, List.cons_append, List.find?] at ih ⊢
    rw [show (decide (p.1 = key)) = false by simpa using hp]
    exact ih (fun pr hpr => h pr (by simp [hpr]))

theorem mapHas_false_of_bound {m : List (Nat × BadgeData)} {k : Nat}
    (h : ∀ pr ∈ m, pr.1 < k) : mapHas m k = false := by
  simp only [mapHas]
  rw [List.any_eq_false]
  intro p hp
  simpa using (h p hp).ne

theorem mapSet_fresh {m : List (Nat × BadgeData)} {k : Nat} {d : BadgeData}
    (h : mapHas m k = false) : mapSet m k d = m ++ [(k, d)] := by
  simp [mapSet, h]

/-- `enableBadge` on a node freshly appended at the end of the child list:
two keys are always consumed, the `before` empty badge is inserted only when
the previous last child is not `badge-empty`, and the `after` empty badge is
always appended (there is no next sibling). -/
theorem enableBadge_append_spec (kdata : Option BadgeData) (s : EngineState)
    (cs : List Badge) (node : Badge)
    (hch : s.children = cs ++ [node])
    (hfresh : ∀ b ∈ cs, b.key ≠ node.key)
    (hk1 : node.key ≠ s.keySeq + 1) :
    enableBadge node.key kdata s =
      ({ children :=
           cs ++ (if (cs.getLast?.map (·.emptyCls)).getD false
             then [node, freshEmptyBadge (s.keySeq + 2)]
             else [freshEmptyBadge (s.keySeq + 1), node,
                   freshEmptyBadge (s.keySeq + 2)]),
         badgeMap := s.badgeMap, activeKey := s.activeKey,
         keySeq := s.keySeq + 2 },
       s.keySeq + 2) := by
  have hpre : prevSibling? (cs ++ [node]) node.key = cs.getLast? :=
    prevSibling?_append_node rfl hfresh
  have hnext : nextSibling? (cs ++ [node]) node.key = none :=
    nextSibling?_append_node rfl hfresh
  have makeChild_none : ∀ st : EngineState, makeChild none st =
      (freshEmptyBadge (st.keySeq + 1), { st with keySeq := st.keySeq + 1 }) :=
    fun st => rfl
  simp only [enableBadge, makeChild_none, hch]
  have hbefore : hasEmptyBadgeBefore (cs ++ [node]) node.key =
      (cs.getLast?.map (·.emptyCls)).getD false := by
    unfold hasEmptyBadgeBefore
    rw [hpre]
    cases cs.getLast? <;> simp
  rw [hbefore]
  by_cases hlast : (cs.getLast?.map (·.emptyCls)).getD false
  · rw [if_pos hlast, if_pos hlast]
    have hafter : hasEmptyBadgeAfter (cs ++ [node]) node.key = false := by
      unfold hasEmptyBadgeAfter
      rw [hnext]
    rw [if_neg (by simp [hafter])]
    rw [insertAfterKey_append_node rfl hfresh]
    rfl
  · rw [if_neg hlast, if_neg hlast]
    rw [insertBeforeKey_append_node rfl hfresh]
    have hfresh2 : ∀ b ∈ cs ++ [freshEmptyBadge (s.keySeq + 1)], b.key ≠ node.key := by
      intro b hb
      rcases List.mem_append.mp hb with h1 | h2
      · exact hfresh b h1
      · simp at h2
        subst h2
        simpa [freshEmptyBadge] using fun hcon => hk1 hcon.symm
    have hsplit : cs ++ freshEmptyBadge (s.keySeq + 1) :: [node] =
        (cs ++ [freshEmptyBadge (s.keySeq + 1)]) ++ [node] := by simp
    have hafter2 : hasEmptyBadgeAfter
        (cs ++ freshEmptyBadge (s.keySeq + 1) :: [node]) node.key = false := by
      unfold hasEmptyBadgeAfter
      rw [hsplit, nextSibling?_append_node rfl hfresh2]
    rw [if_neg (by simp [hafter2])]
    rw [hsplit, insertAfterKey_append_node rfl hfresh2]
    simp [freshEmptyBadge]

theorem mapGet?_none_of_bound {m : List (Nat × BadgeData)} {k : Nat}
    (h : ∀ pr ∈ m, pr.1 < k) : mapGet? m k = none := by
  induction m with
  | nil => rfl
  | cons p ps ih =>
    have hp : p.1 ≠ k := (h p (by simp)).ne
    simp only [mapGet?, List.find?]
    rw [show (decide (p.1 = k)) = false by simpa using hp]
    exact ih (fun pr hpr => h pr (by simp [hpr]))

theorem enableBadge_append_eval (kd : Option BadgeData) (cs : List Badge)
    (node : Badge) (m : List (Nat × BadgeData)) (ak : Option Nat) (seq : Nat)
    (hfresh : ∀ b ∈ cs, b.key ≠ node.key) (hk1 : node.key ≠ seq + 1) :
    enableBadge node.key kd
      { children := cs ++ [node], badgeMap := m, activeKey := ak, keySeq := seq } =
      ({ children := cs ++ (if (cs.getLast?.map (·.emptyCls)).getD false
           then [node, freshEmptyBadge (seq + 2)]
           else [freshEmptyBadge (seq + 1), node, freshEmptyBadge (seq + 2)]),
         badgeMap := m, activeKey := ak, keySeq := seq + 2 }, seq + 2) :=
  enableBadge_append_spec kd _ cs node rfl hfresh hk1

theorem addOneValue_spec (s : EngineState) (acc : List Ev) (v : PItem)
    (hkeys : ∀ b ∈ s.children, b.key ≤ s.keySeq)
    (hmkeys : ∀ pr ∈ s.badgeMap, pr.1 ≤ s.keySeq) :
    addOneValue (s, acc) v =
      ({ children := s.children ++
           (if (s.children.getLast?.map (·.emptyCls)).getD false
            then [contentNode (s.keySeq + 1) v, freshEmptyBadge (s.keySeq + 3)]
            else [freshEmptyBadge (s.keySeq + 2), contentNode (s.keySeq + 1) v,
                  freshEmptyBadge (s.keySeq + 3)]),
         badgeMap := s.badgeMap ++ [(s.keySeq + 1, dataOf v)],
         activeKey := s.activeKey, keySeq := s.keySeq + 3 },
       acc ++ [{ type := .add, nodeKey := s.keySeq + 1, value := some v,
                 previousValue := none }]) := by
  have hkey : (contentNode (s.keySeq + 1) v).key = s.keySeq + 1 := rfl
  have hmc : makeChild (some (match v.text with
        | some t => t
        | none => objectToString)) s =
      ({ (contentNode (s.keySeq + 1) v) with invalidCls := false, validCls := false },
       { s with keySeq := s.keySeq + 1 }) := by
    by_cases h : (match v.text with
        | some t => t
        | none => objectToString).isEmpty
    · simp [makeChild, contentNode, h]
    · simp [makeChild, contentNode, h]
  have hfreshmap : mapHas s.badgeMap (s.keySeq + 1) = false :=
    mapHas_false_of_bound (fun pr hpr => by
      have := hmkeys pr hpr
      omega)
  have hnodeEq : ({ key := (contentNode (s.keySeq + 1) v).key,
                    text := (contentNode (s.keySeq + 1) v).text,
                    firstNode := (contentNode (s.keySeq + 1) v).firstNode,
                    emptyCls := (contentNode (s.keySeq + 1) v).emptyCls,
                    invalidCls := false,
                    validCls := true,
                    activeCls := (contentNode (s.keySeq + 1) v).activeCls } : Badge)
      = contentNode (s.keySeq + 1) v := rfl
  unfold addOneValue
  dsimp only
  rw [hmc]
  dsimp only
  rw [hnodeEq]
  rw [hkey]
  rw [mapSet_fresh hfreshmap]
  rw [show ({ value := some v,
              textContent := match v.text with
                | some t => t
                | none => objectToString,
              rawText := none } : BadgeData) = dataOf v from rfl]
  have henable := enableBadge_append_eval (some (dataOf v)) s.children
    (contentNode (s.keySeq + 1) v) (s.badgeMap ++ [(s.keySeq + 1, dataOf v)])
    s.activeKey (s.keySeq + 1)
    (fun b hb => by
      have := hkeys b hb
      rw [hkey]
      omega)
    (by rw [hkey]; omega)
  rw [hkey] at henable
  rw [henable]

/-- The `add` events the value setter emits, with the keys the badge-key
sequence will hand out (3 keys per item: content badge plus the two
`enableBadge` manufactures). -/
def addEvsFrom (seq : Nat) : List PItem → List Ev
  | [] => []
  | v :: vs => { type := .add, nodeKey := seq + 1, value := some v,
                 previousValue := none } :: addEvsFrom (seq + 3) vs

/-- The badge-map entries the value setter creates. -/
def mapFrom (seq : Nat) : List PItem → List (Nat × BadgeData)
  | [] => []
  | v :: vs => (seq + 1, dataOf v) :: mapFrom (seq + 3) vs

theorem mapFrom_length (items : List PItem) : ∀ seq,
    (mapFrom seq items).length = items.length := by
  induction items with
  | nil => intro seq; rfl
  | cons v vs ih => intro seq; simp [mapFrom, ih]

theorem forEachCollect_addOne (s : EngineState) (acc : List Ev) (v : PItem)
    (hkeys : ∀ b ∈ s.children, b.key ≤ s.keySeq)
    (hmkeys : ∀ pr ∈ s.badgeMap, pr.1 ≤ s.keySeq) :
    forEachCollect (addOneValue (s, acc) v).1 =
      forEachCollect s ++ [(some v, s.keySeq + 1)] := by
  rw [addOneValue_spec s acc v hkeys hmkeys]
  unfold forEachCollect
  dsimp only
  rw [List.filterMap_append]
  have hold : ∀ c ∈ s.children,
      (mapGet? (s.badgeMap ++ [(s.keySeq + 1, dataOf v)]) c.key).map
        (fun d => (d.value, c.key)) =
      (mapGet? s.badgeMap c.key).map (fun d => (d.value, c.key)) := by
    intro c hc
    rw [mapGet?_append_ne (by
      have := hkeys c hc
      omega)]
  rw [List.filterMap_congr hold]
  congr 1
  have hfresh : mapGet? (s.badgeMap ++ [(s.keySeq + 1, dataOf v)]) (s.keySeq + 1) =
      some (dataOf v) :=
    mapGet?_append_fresh (fun pr hpr => by
      have := hmkeys pr hpr
      omega)
  have hmiss2 : mapGet? (s.badgeMap ++ [(s.keySeq + 1, dataOf v)]) (s.keySeq + 2) = none := by
    rw [mapGet?_append_ne (by omega)]
    exact mapGet?_none_of_bound (fun pr hpr => by
      have := hmkeys pr hpr
      omega)
  have hmiss3 : mapGet? (s.badgeMap ++ [(s.keySeq + 1, dataOf v)]) (s.keySeq + 3) = none := by
    rw [mapGet?_append_ne (by omega)]
    exact mapGet?_none_of_bound (fun pr hpr => by
      have := hmkeys pr hpr
      omega)
  have hdv : (dataOf v).value = some v := rfl
  by_cases hlast : (s.children.getLast?.map (·.emptyCls)).getD false
  · rw [if_pos hlast]
    simp [List.filterMap, contentNode, freshEmptyBadge, hfresh, hmiss3, hdv]
  · rw [if_neg hlast]
    simp [List.filterMap, contentNode, freshEmptyBadge, hfresh, hmiss2, hmiss3, hdv]

/-- The add phase of the value setter, specified by induction over the
assigned items. -/
theorem addFold_spec (items : List PItem) : ∀ (s : EngineState) (acc : List Ev),
    (∀ b ∈ s.children, b.key ≤ s.keySeq) →
    (∀ pr ∈ s.badgeMap, pr.1 ≤ s.keySeq) →
    (items.foldl addOneValue (s, acc)).2 = acc ++ addEvsFrom s.keySeq items ∧
    (items.foldl addOneValue (s, acc)).1.badgeMap =
      s.badgeMap ++ mapFrom s.keySeq items ∧
    forEachCollect (items.foldl addOneValue (s, acc)).1 =
      forEachCollect s ++ (mapFrom s.keySeq items).map (fun pr => (pr.2.value, pr.1)) := by
  induction items with
  | nil =>
    intro s acc _ _
    simp [addEvsFrom, mapFrom]
  | cons v vs ih =>
    intro s acc hkeys hmkeys
    rw [List.foldl_cons]
    have hone := addOneValue_spec s acc v hkeys hmkeys
    have hfe := forEachCollect_addOne s acc v hkeys hmkeys
    have hkeySeq : (addOneValue (s, acc) v).1.keySeq = s.keySeq + 3 := by
      rw [hone]
    have hmap : (addOneValue (s, acc) v).1.badgeMap =
        s.badgeMap ++ [(s.keySeq + 1, dataOf v)] := by
      rw [hone]
    have hacc : (addOneValue (s, acc) v).2 =
        acc ++ [{ type := .add, nodeKey := s.keySeq + 1, value := some v,
                  previousValue := none }] := by
      rw [hone]
    have hkeys' : ∀ b ∈ (addOneValue (s, acc) v).1.children,
        b.key ≤ (addOneValue (s, acc) v).1.keySeq := by
      rw [hone]
      intro b hb
      dsimp only at hb ⊢
      rcases List.mem_append.mp hb with h1 | h2
      · have := hkeys b h1
        omega
      · by_cases hlast : (s.children.getLast?.map (·.emptyCls)).getD false
        · rw [if_pos hlast] at h2
          simp only [List.mem_cons, List.not_mem_nil, or_false] at h2
          rcases h2 with h2 | h2 <;> subst h2 <;>
            dsimp [contentNode, freshEmptyBadge] <;> omega
        · rw [if_neg hlast] at h2
          simp only [List.mem_cons, List.not_mem_nil, or_false] at h2
          rcases h2 with h2 | h2 | h2 <;> subst h2 <;>
            dsimp [contentNode, freshEmptyBadge] <;> omega
    have hmkeys' : ∀ pr ∈ (addOneValue (s, acc) v).1.badgeMap,
        pr.1 ≤ (addOneValue (s, acc) v).1.keySeq := by
      rw [hmap, hkeySeq]
      intro pr hpr
      rcases List.mem_append.mp hpr with h1 | h2
      · have := hmkeys pr h1
        omega
      · simp only [List.mem_singleton] at h2
        subst h2
        dsimp only
        omega
    rw [show addOneValue (s, acc) v =
          ((addOneValue (s, acc) v).1, (addOneValue (s, acc) v).2) from rfl]
    obtain ⟨he, hm, hf⟩ := ih (addOneValue (s, acc) v).1 (addOneValue (s, acc) v).2
      hkeys' hmkeys'
    refine ⟨?_, ?_, ?_⟩
    · rw [he, hacc, hkeySeq]
      simp [addEvsFrom]
    · rw [hm, hmap, hkeySeq]
      simp [mapFrom]
    · rw [hf, hfe, hkeySeq]
      have hdv : (dataOf v).value = some v := rfl
      simp [mapFrom, hdv]

theorem addEvsFrom_shape (items : List PItem) : ∀ seq,
    (addEvsFrom seq items).map (fun e => (e.type, e.value)) =
      items.map (fun v => (EvType.add, some v)) := by
  induction items with
  | nil => intro seq; rfl
  | cons v vs ih => intro seq; simp [addEvsFrom, ih]

theorem mapFrom_values (items : List PItem) : ∀ seq,
    (mapFrom seq items).map (fun pr => pr.2.value) = items.map some := by
  induction items with
  | nil => intro seq; rfl
  | cons v vs ih => intro seq; simp [mapFrom, dataOf, ih]

theorem mapHas_true_of_mem {m : List (Nat × BadgeData)} {pr : Nat × BadgeData}
    (h : pr ∈ m) : mapHas m pr.1 = true := by
  simp only [mapHas, List.any_eq_true]
  exact ⟨pr, h, by simp⟩

theorem deleteLoop_sublist (m : List (Nat × BadgeData)) :
    ∀ (cs : List Badge) (i : Nat), ((deleteLoop m cs i).2).Sublist cs := by
  intro cs i
  induction cs, i using deleteLoop.induct m with
  | case1 cs i h c hc ih =>
    have heq : (deleteLoop m cs i).2 = (deleteLoop m (cs.eraseIdx i) (i + 1)).2 := by
      conv_lhs => unfold deleteLoop
      rw [dif_pos h, if_pos hc]
    rw [heq]
    exact ih.trans (List.eraseIdx_sublist cs i)
  | case2 cs i h c hc ih =>
    have : deleteLoop m cs i = deleteLoop m cs (i + 1) := by
      conv_lhs => unfold deleteLoop
      rw [dif_pos h, if_neg hc]
    rw [this]
    exact ih
  | case3 cs i h =>
    rw [deleteLoop_atEnd m cs i h]

/-- C5: assigning items through the `value` setter emits, in ONE batch, a
`delete` for every reachable prior content segment (the map-carrying
children, in left-to-right order — the store's flanking invariant, assumed as
`hchain`, guarantees the live-collection loop reaches all of them) followed
by an `add` per assigned item in sequence order, and afterwards the content
length equals the number of assigned items. -/
theorem c5_replaceAll (items : List PItem) (s : EngineState)
    (hchain : List.Chain' (fun a b =>
      ¬(mapHas s.badgeMap a.key = true ∧ mapHas s.badgeMap b.key = true)) s.children)
    (hkeys : ∀ b ∈ s.children, b.key ≤ s.keySeq)
    (hmem : ∀ pr ∈ s.badgeMap, ∃ b ∈ s.children, b.key = pr.1) :
    (valueSetter items s).2 =
      [((s.children.filter fun c => mapHas s.badgeMap c.key).map
          (delEvOf s.badgeMap)) ++ addEvsFrom s.keySeq items] ∧
    (∀ pr ∈ s.badgeMap,
      ∃ e ∈ (s.children.filter fun c => mapHas s.badgeMap c.key).map
          (delEvOf s.badgeMap), e.type = .delete ∧ e.nodeKey = pr.1) ∧
    (addEvsFrom s.keySeq items).map (fun e => (e.type, e.value)) =
      items.map (fun v => (EvType.add, some v)) ∧
    controlLength (valueSetter items s).1 = items.length := by
  have hdel := deleteLoop_go s.badgeMap s.children.length s.children []
    (Nat.le_refl _) (by simp) hchain
  simp only [List.nil_append, List.length_nil] at hdel
  have hsub : ∀ b ∈ (s.children.filter fun c => !mapHas s.badgeMap c.key).filter
      (fun b => !b.emptyCls), b ∈ s.children := by
    intro b hb
    exact List.mem_of_mem_filter (List.mem_of_mem_filter hb)
  have hfold := addFold_spec items
    { children := (s.children.filter fun c => !mapHas s.badgeMap c.key).filter
        (fun b => !b.emptyCls),
      badgeMap := [], activeKey := s.activeKey, keySeq := s.keySeq }
    []
    (by
      intro b hb
      exact hkeys b (hsub b hb))
    (by intro pr hpr; cases hpr)
  obtain ⟨he, hm, _⟩ := hfold
  refine ⟨?_, ?_, addEvsFrom_shape items s.keySeq, ?_⟩
  · unfold valueSetter
    rw [hdel]
    dsimp only
    rw [he]
    simp
  · intro pr hpr
    obtain ⟨b, hb, hbk⟩ := hmem pr hpr
    have hhas : mapHas s.badgeMap b.key = true := by
      rw [hbk]
      exact mapHas_true_of_mem hpr
    refine ⟨delEvOf s.badgeMap b, List.mem_map_of_mem _ ?_, rfl, hbk⟩
    exact List.mem_filter.mpr ⟨hb, hhas⟩
  · unfold valueSetter
    rw [hdel]
    dsimp only
    unfold controlLength
    rw [hm]
    simp [mapFrom_length]

/-- C6: assigning items through the `value` setter and then collecting the
store via `forEach` yields exactly the assigned items, in order, as the
stored values.  (No flanking assumption is needed: whatever the delete loop
leaves behind is no longer in the cleared map, so `forEach` skips it.) -/
theorem c6_roundtrip (items : List PItem) (s : EngineState)
    (hkeys : ∀ b ∈ s.children, b.key ≤ s.keySeq) :
    (forEachCollect (valueSetter items s).1).map (·.1) = items.map some := by
  have hsub2 : (((deleteLoop s.badgeMap s.children 0).2.filter
      (fun b => !b.emptyCls))).Sublist s.children :=
    ((List.filter_sublist _).trans (deleteLoop_sublist s.badgeMap s.children 0))
  have hfold := addFold_spec items
    { children := (deleteLoop s.badgeMap s.children 0).2.filter (fun b => !b.emptyCls),
      badgeMap := [], activeKey := s.activeKey, keySeq := s.keySeq }
    []
    (by
      intro b hb
      exact hkeys b (hsub2.subset hb))
    (by intro pr hpr; cases hpr)
  obtain ⟨_, _, hf⟩ := hfold
  unfold valueSetter
  dsimp only
  rw [hf]
  have hempty : forEachCollect
      { children := (deleteLoop s.badgeMap s.children 0).2.filter (fun b => !b.emptyCls),
        badgeMap := [], activeKey := s.activeKey, keySeq := s.keySeq } = [] := by
    unfold forEachCollect
    dsimp only
    have : ∀ c ∈ (deleteLoop s.badgeMap s.children 0).2.filter (fun b => !b.emptyCls),
        (mapGet? [] c.key).map (fun d => (d.value, c.key)) = none := by
      intro c _
      rfl
    rw [List.filterMap_congr this]
    simp
  rw [hempty]
  simp only [List.nil_append, List.map_map]
  have hcomp : ((fun p : Option PItem × Nat => p.1) ∘
      fun pr : Nat × BadgeData => (pr.2.value, pr.1)) =
      fun pr : Nat × BadgeData => pr.2.value := rfl
  rw [hcomp, mapFrom_values]

/-- Concrete fixture for the value-setter witnesses: a committed `"foo"`
badge flanked by empty badges. -/
def c5State : EngineState :=
  { children := [c1EmptyBadge 1,
      { key := 2, text := "foo".toList, firstNode := .txt, emptyCls := false,
        invalidCls := false, validCls := true, activeCls := false },
      c1EmptyBadge 3],
    badgeMap := [(2, c1Data)], activeKey := none, keySeq := 3 }

def cItemA : PItem := { text := some "a".toList, location := none }
def cItemB : PItem := { text := some "b".toList, location := none }

theorem c5_replaceAll_witness :
    (List.Chain' (fun a b =>
        ¬(mapHas c5State.badgeMap a.key = true ∧ mapHas c5State.badgeMap b.key = true))
        c5State.children ∧
     (∀ b ∈ c5State.children, b.key ≤ c5State.keySeq) ∧
     (∀ pr ∈ c5State.badgeMap, ∃ b ∈ c5State.children, b.key = pr.1)) ∧
    ((valueSetter [cItemA, cItemB] c5State).2 =
      [((c5State.children.filter fun c => mapHas c5State.badgeMap c.key).map
          (delEvOf c5State.badgeMap)) ++ addEvsFrom c5State.keySeq [cItemA, cItemB]] ∧
     (∀ pr ∈ c5State.badgeMap,
       ∃ e ∈ (c5State.children.filter fun c => mapHas c5State.badgeMap c.key).map
          (delEvOf c5State.badgeMap), e.type = .delete ∧ e.nodeKey = pr.1) ∧
     (addEvsFrom c5State.keySeq [cItemA, cItemB]).map (fun e => (e.type, e.value)) =
      [cItemA, cItemB].map (fun v => (EvType.add, some v)) ∧
     controlLength (valueSetter [cItemA, cItemB] c5State).1 = 2) := by
  have hchain : List.Chain' (fun a b =>
      ¬(mapHas c5State.badgeMap a.key = true ∧ mapHas c5State.badgeMap b.key = true))
      c5State.children :=
    List.chain'_cons.mpr ⟨by decide, List.chain'_cons.mpr ⟨by decide, by simp⟩⟩
  exact ⟨⟨hchain, by decide, by decide⟩,
    c5_replaceAll [cItemA, cItemB] c5State hchain (by decide) (by decide)⟩

theorem c6_roundtrip_witness :
    (∀ b ∈ c5State.children, b.key ≤ c5State.keySeq) ∧
    (forEachCollect (valueSetter [cItemA, cItemB] c5State).1).map (·.1) =
      [cItemA, cItemB].map some :=
  ⟨by decide, c6_roundtrip [cItemA, cItemB] c5State (by decide)⟩

/-! ### Key discipline (C9) -/

/-- Well-formed keys: distinct, positive, and bounded by the key sequence. -/
def KeysOK (s : EngineState) : Prop :=
  (s.children.map (·.key)).Nodup ∧
  ∀ b ∈ s.children, 0 < b.key ∧ b.key ≤ s.keySeq

/-- One engine step's key discipline: the key sequence never decreases and,
from a well-formed state, well-formedness is preserved and every surviving
old key (one not freshly assigned, i.e. within the old sequence) belonged to
a child before the step — keys are never invented for old ranges, hence
never reused for a different segment. -/
def Evolves (s s' : EngineState) : Prop :=
  s.keySeq ≤ s'.keySeq ∧
  (KeysOK s → KeysOK s' ∧
    ∀ k ∈ s'.children.map (·.key), k ≤ s.keySeq → k ∈ s.children.map (·.key))

theorem Evolves.rfl (s : EngineState) : Evolves s s :=
  ⟨Nat.le_refl _, fun h => ⟨h, fun _ hk _ => hk⟩⟩

theorem Evolves.trans {s1 s2 s3 : EngineState}
    (h1 : Evolves s1 s2) (h2 : Evolves s2 s3) : Evolves s1 s3 := by
  refine ⟨h1.1.trans h2.1, fun hok => ?_⟩
  obtain ⟨hok2, hmem2⟩ := h1.2 hok
  obtain ⟨hok3, hmem3⟩ := h2.2 hok2
  exact ⟨hok3, fun k hk hle => hmem2 k (hmem3 k hk (hle.trans h1.1)) hle⟩

theorem Evolves_sublist {s s' : EngineState} (hseq : s.keySeq ≤ s'.keySeq)
    (hsub : s'.children.Sublist s.children) : Evolves s s' := by
  refine ⟨hseq, fun hok => ?_⟩
  obtain ⟨hnd, hbd⟩ := hok
  refine ⟨⟨hnd.sublist (hsub.map _), fun b hb => ?_⟩, ?_⟩
  · obtain ⟨h1, h2⟩ := hbd b (hsub.subset hb)
    exact ⟨h1, h2.trans hseq⟩
  · intro k hk _
    exact (hsub.map (·.key)).subset hk

theorem Evolves_keysEq {s s' : EngineState} (hseq : s.keySeq ≤ s'.keySeq)
    (hkeys : s'.children.map (·.key) = s.children.map (·.key)) : Evolves s s' := by
  refine ⟨hseq, fun hok => ?_⟩
  obtain ⟨hnd, hbd⟩ := hok
  have hbd' : ∀ b ∈ s'.children, 0 < b.key ∧ b.key ≤ s'.keySeq := by
    intro b hb
    have : b.key ∈ s.children.map (·.key) := by
      rw [← hkeys]
      exact List.mem_map_of_mem _ hb
    obtain ⟨b0, hb0, hb0k⟩ := List.mem_map.mp this
    obtain ⟨h1, h2⟩ := hbd b0 hb0
    rw [hb0k] at h1 h2
    exact ⟨h1, h2.trans hseq⟩
  refine ⟨⟨by rw [hkeys]; exact hnd, hbd'⟩, ?_⟩
  intro k hk _
  rw [hkeys] at hk
  exact hk

/-- Children permuted with some freshly keyed badges prepended. -/
theorem Evolves_permFresh {s s' : EngineState} (fresh : List Badge)
    (hseq : s.keySeq ≤ s'.keySeq)
    (hfr : ∀ f ∈ fresh, s.keySeq < f.key ∧ f.key ≤ s'.keySeq)
    (hndf : (fresh.map (·.key)).Nodup)
    (hperm : s'.children.Perm (fresh ++ s.children)) : Evolves s s' := by
  refine ⟨hseq, fun hok => ?_⟩
  obtain ⟨hnd, hbd⟩ := hok
  have hpk : (s'.children.map (·.key)).Perm
      (fresh.map (·.key) ++ s.children.map (·.key)) := by
    have := hperm.map (·.key)
    simpa using this
  have hdisj : ∀ k ∈ fresh.map (·.key), k ∉ s.children.map (·.key) := by
    intro k hk hmem
    obtain ⟨f, hf, hfk⟩ := List.mem_map.mp hk
    obtain ⟨b, hb, hbk⟩ := List.mem_map.mp hmem
    have h1 := (hfr f hf).1
    have h2 := (hbd b hb).2
    omega
  have hnd' : (s'.children.map (·.key)).Nodup := by
    rw [hpk.nodup_iff]
    rw [List.nodup_append]
    exact ⟨hndf, hnd, fun a ha hb => hdisj a ha hb⟩
  refine ⟨⟨hnd', fun b hb => ?_⟩, ?_⟩
  · have := hperm.subset hb
    rcases List.mem_append.mp this with h1 | h2
    · obtain ⟨hgt, hle⟩ := hfr b h1
      exact ⟨by omega, hle⟩
    · obtain ⟨h1, h2⟩ := hbd b h2
      exact ⟨h1, h2.trans hseq⟩
  · intro k hk hle
    have : k ∈ fresh.map (·.key) ++ s.children.map (·.key) := hpk.subset hk
    rcases List.mem_append.mp this with h1 | h2
    · obtain ⟨f, hf, hfk⟩ := List.mem_map.mp h1
      have := (hfr f hf).1
      omega
    · exact h2

theorem updateChild_keys (cs : List Badge) (k : Nat) (f : Badge → Badge)
    (hf : ∀ b, (f b).key = b.key) :
    (updateChild cs k f).map (·.key) = cs.map (·.key) := by
  unfold updateChild
  rw [List.map_map]
  apply List.map_congr_left
  intro b _
  by_cases h : b.key = k <;> simp [h, hf]

theorem listInsertAt_perm (cs : List Badge) (i : Nat) (nb : Badge) :
    (listInsertAt cs i nb).Perm (nb :: cs) := by
  unfold listInsertAt
  calc (cs.take i ++ nb :: cs.drop i).Perm (nb :: (cs.take i ++ cs.drop i)) :=
        List.perm_middle
    _ = nb :: cs := by rw [List.take_append_drop]

theorem insertBeforeKey_perm (cs : List Badge) (k : Nat) (nb : Badge) :
    insertBeforeKey cs k nb = cs ∨ (insertBeforeKey cs k nb).Perm (nb :: cs) := by
  unfold insertBeforeKey
  cases childIdx? cs k with
  | none => exact Or.inl rfl
  | some i => exact Or.inr (listInsertAt_perm cs i nb)

theorem insertAfterKey_perm (cs : List Badge) (k : Nat) (nb : Badge) :
    insertAfterKey cs k nb = cs ∨ (insertAfterKey cs k nb).Perm (nb :: cs) := by
  unfold insertAfterKey
  cases childIdx? cs k with
  | none => exact Or.inl rfl
  | some i => exact Or.inr (listInsertAt_perm cs (i + 1) nb)

theorem makeChild_none_eq (st : EngineState) :
    makeChild none st =
      (freshEmptyBadge (st.keySeq + 1), { st with keySeq := st.keySeq + 1 }) := rfl

theorem updateBadge_evolves (k : Nat) (d : Option BadgeData) (s : EngineState) :
    Evolves s (updateBadge k d s).1 := by
  unfold updateBadge
  cases d with
  | some dd =>
    dsimp only
    exact Evolves_keysEq (Nat.le_refl _) (updateChild_keys _ _ _ (fun b => rfl))
  | none =>
    dsimp only
    cases mapGet? s.badgeMap k with
    | some prev =>
      dsimp only
      exact Evolves_keysEq (Nat.le_refl _) (updateChild_keys _ _ _ (fun b => rfl))
    | none =>
      dsimp only
      exact Evolves_keysEq (Nat.le_refl _) (updateChild_keys _ _ _ (fun b => rfl))

theorem setEmptyCls_evolves (k : Nat) (v : Bool) (s : EngineState) :
    Evolves s (setEmptyCls k v s) :=
  Evolves_keysEq (Nat.le_refl _) (updateChild_keys _ _ _ (fun b => rfl))

theorem validateBadge_evolves (p : JsParser) (k : Nat) (d : Option BadgeData)
    (s : EngineState) : Evolves s (validateBadge p k d s).1 := by
  unfold validateBadge
  cases d with
  | none =>
    dsimp only
    split
    · split
      · exact (setEmptyCls_evolves k true s).trans (updateBadge_evolves k none _)
      · exact setEmptyCls_evolves k true s
    · split
      · split
        · split
          · exact (setEmptyCls_evolves k false s).trans (updateBadge_evolves k _ _)
          · split
            · exact (setEmptyCls_evolves k false s).trans (updateBadge_evolves k none _)
            · exact setEmptyCls_evolves k false s
        · split
          · exact (setEmptyCls_evolves k false s).trans (updateBadge_evolves k none _)
          · exact setEmptyCls_evolves k false s
      · exact setEmptyCls_evolves k false s
  | some dd =>
    dsimp only
    split
    · exact setEmptyCls_evolves k true s
    · exact setEmptyCls_evolves k false s

theorem enableBadge_evolves (k : Nat) (d : Option BadgeData) (s : EngineState) :
    Evolves s (enableBadge k d s).1 := by
  unfold enableBadge
  rw [makeChild_none_eq]
  dsimp only
  rw [makeChild_none_eq]
  dsimp only
  have hseq2 : s.keySeq ≤ s.keySeq + 1 + 1 := by omega
  have hfr1 : ∀ f ∈ [freshEmptyBadge (s.keySeq + 1 + 1)],
      s.keySeq < f.key ∧ f.key ≤ s.keySeq + 1 + 1 := by
    intro f hf
    simp at hf
    subst hf
    dsimp [freshEmptyBadge]
    omega
  have hfr2 : ∀ f ∈ [freshEmptyBadge (s.keySeq + 1)],
      s.keySeq < f.key ∧ f.key ≤ s.keySeq + 1 + 1 := by
    intro f hf
    simp at hf
    subst hf
    dsimp [freshEmptyBadge]
    omega
  have hfr3 : ∀ f ∈ [freshEmptyBadge (s.keySeq + 1 + 1), freshEmptyBadge (s.keySeq + 1)],
      s.keySeq < f.key ∧ f.key ≤ s.keySeq + 1 + 1 := by
    intro f hf
    simp at hf
    rcases hf with hf | hf <;> subst hf <;> dsimp [freshEmptyBadge] <;> omega
  by_cases hb : hasEmptyBadgeBefore s.children k
  · rw [if_pos hb]
    by_cases ha : hasEmptyBadgeAfter s.children k
    · rw [if_pos ha]
      exact Evolves_keysEq hseq2 rfl
    · rw [if_neg ha]
      dsimp only
      rcases insertAfterKey_perm s.children k (freshEmptyBadge (s.keySeq + 1 + 1)) with
        heq | hperm
      · rw [heq]
        exact Evolves_keysEq hseq2 rfl
      · exact Evolves_permFresh [freshEmptyBadge (s.keySeq + 1 + 1)] hseq2 hfr1
          (by simp) (by simpa using hperm)
  · rw [if_neg hb]
    dsimp only
    rcases insertBeforeKey_perm s.children k (freshEmptyBadge (s.keySeq + 1)) with
      heqB | hpermB
    · rw [heqB]
      by_cases ha : hasEmptyBadgeAfter s.children k
      · rw [if_pos ha]
        exact Evolves_keysEq hseq2 rfl
      · rw [if_neg ha]
        dsimp only
        rcases insertAfterKey_perm s.children k (freshEmptyBadge (s.keySeq + 1 + 1)) with
          heq | hperm
        · rw [heq]
          exact Evolves_keysEq hseq2 rfl
        · exact Evolves_permFresh [freshEmptyBadge (s.keySeq + 1 + 1)] hseq2 hfr1
            (by simp) (by simpa using hperm)
    · by_cases ha : hasEmptyBadgeAfter
          (insertBeforeKey s.children k (freshEmptyBadge (s.keySeq + 1))) k
      · rw [if_pos ha]
        exact Evolves_permFresh [freshEmptyBadge (s.keySeq + 1)] hseq2 hfr2
          (by simp) (by simpa using hpermB)
      · rw [if_neg ha]
        dsimp only
        rcases insertAfterKey_perm
            (insertBeforeKey s.children k (freshEmptyBadge (s.keySeq + 1))) k
            (freshEmptyBadge (s.keySeq + 1 + 1)) with heq | hperm
        · rw [heq]
          exact Evolves_permFresh [freshEmptyBadge (s.keySeq + 1)] hseq2 hfr2
            (by simp) (by simpa using hpermB)
        · refine Evolves_permFresh
            [freshEmptyBadge (s.keySeq + 1 + 1), freshEmptyBadge (s.keySeq + 1)]
            hseq2 hfr3 ?_ ?_
          · simp [freshEmptyBadge]
          · simpa using hperm.trans
              (List.Perm.cons (freshEmptyBadge (s.keySeq + 1 + 1)) hpermB)

theorem Evolves_if_active (cs : List Badge) (m : List (Nat × BadgeData))
    (ak : Option Nat) (sq : Nat) (c : Prop) [Decidable c] :
    Evolves { children := cs, badgeMap := m, activeKey := ak, keySeq := sq }
      (if c then { children := cs, badgeMap := m, activeKey := none, keySeq := sq }
       else { children := cs, badgeMap := m, activeKey := ak, keySeq := sq }) := by
  split <;> exact Evolves_keysEq (Nat.le_refl _) rfl

theorem deactivateBadge_evolves (p : JsParser) (k : Nat) (d : Option BadgeData)
    (s : EngineState) : Evolves s (deactivateBadge p k d s).1 := by
  unfold deactivateBadge
  dsimp only
  split
  · split
    · dsimp only
      refine ((@Evolves_keysEq s { children := updateChild s.children k (fun b => { b with activeCls := false }), badgeMap := s.badgeMap, activeKey := none, keySeq := s.keySeq } (Nat.le_refl _) ?_).trans
        (validateBadge_evolves p k d { children := updateChild s.children k (fun b => { b with activeCls := false }), badgeMap := s.badgeMap, activeKey := none, keySeq := s.keySeq })).trans
        (enableBadge_evolves k d _)
      exact updateChild_keys _ _ _ (fun b => rfl)
    · dsimp only
      refine (@Evolves_keysEq s { children := updateChild s.children k (fun b => { b with activeCls := false }), badgeMap := s.badgeMap, activeKey := none, keySeq := s.keySeq } (Nat.le_refl _) ?_).trans
        (validateBadge_evolves p k d { children := updateChild s.children k (fun b => { b with activeCls := false }), badgeMap := s.badgeMap, activeKey := none, keySeq := s.keySeq })
      exact updateChild_keys _ _ _ (fun b => rfl)
  · split
    · dsimp only
      refine ((@Evolves_keysEq s { children := updateChild s.children k (fun b => { b with activeCls := false }), badgeMap := s.badgeMap, activeKey := s.activeKey, keySeq := s.keySeq } (Nat.le_refl _) ?_).trans
        (validateBadge_evolves p k d { children := updateChild s.children k (fun b => { b with activeCls := false }), badgeMap := s.badgeMap, activeKey := s.activeKey, keySeq := s.keySeq })).trans
        (enableBadge_evolves k d _)
      exact updateChild_keys _ _ _ (fun b => rfl)
    · dsimp only
      refine (@Evolves_keysEq s { children := updateChild s.children k (fun b => { b with activeCls := false }), badgeMap := s.badgeMap, activeKey := s.activeKey, keySeq := s.keySeq } (Nat.le_refl _) ?_).trans
        (validateBadge_evolves p k d { children := updateChild s.children k (fun b => { b with activeCls := false }), badgeMap := s.badgeMap, activeKey := s.activeKey, keySeq := s.keySeq })
      exact updateChild_keys _ _ _ (fun b => rfl)

theorem activateBadge_evolves (p : JsParser) (k? : Option Nat)
    (collapse : Option Nat) (s : EngineState) :
    Evolves s (activateBadge p k? collapse s).1 := by
  unfold activateBadge
  split
  · exact Evolves.rfl s
  · dsimp only
    have h1 : Evolves s (match s.activeKey with
        | some a => ((deactivateBadge p a none s).1, (deactivateBadge p a none s).2.1)
        | none => (s, [])).1 := by
      cases s.activeKey with
      | some a => exact deactivateBadge_evolves p a none s
      | none => exact Evolves.rfl s
    cases k? with
    | none => exact h1
    | some k =>
      dsimp only
      split
      · exact h1
      · exact h1.trans (Evolves_keysEq (Nat.le_refl _)
          (updateChild_keys _ _ _ (fun b => rfl)))

theorem runActPlan_evolves (p : JsParser) (plan : ActPlan) (badgeVar : Nat)
    (dataVar : BadgeData) (s : EngineState) :
    Evolves s (runActPlan p plan badgeVar dataVar s).1 := by
  unfold runActPlan
  cases plan with
  | dflt =>
    dsimp only
    cases s.activeKey with
    | some a =>
      exact (deactivateBadge_evolves p a (some dataVar) s).trans
        (activateBadge_evolves p _ (some 0) _)
    | none => exact Evolves.rfl s
  | endOfLeft c cur =>
    exact (deactivateBadge_evolves p badgeVar (some dataVar) s).trans
      (activateBadge_evolves p (some cur) (some c) _)
  | inRight c cur => exact activateBadge_evolves p (some cur) (some c) s

theorem keydownCatch_evolves (badgeVar : Nat) (s : EngineState)
    (evs : List (List Ev)) (b : Bool) :
    Evolves s (keydownCatch badgeVar s evs b).1 := by
  unfold keydownCatch
  exact updateBadge_evolves badgeVar none s

theorem setBadgeTextContent_evolves (k : Nat) (t : List Char) (s : EngineState) :
    Evolves s (setBadgeTextContent k t s) :=
  Evolves_keysEq (Nat.le_refl _) (updateChild_keys _ _ _ (fun b => rfl))

theorem splitTextOff_evolves (k off : Nat) (s : EngineState) :
    Evolves s (splitTextOff k off s) :=
  Evolves_keysEq (Nat.le_refl _) (updateChild_keys _ _ _ (fun b => rfl))

theorem prependTextNode_evolves (k : Nat) (t : List Char) (s : EngineState) :
    Evolves s (prependTextNode k t s) :=
  Evolves_keysEq (Nat.le_refl _) (updateChild_keys _ _ _ (fun b => rfl))

attribute [irreducible] updateBadge enableBadge deactivateBadge activateBadge
attribute [irreducible] runActPlan keydownCatch setBadgeTextContent
attribute [irreducible] splitTextOff prependTextNode
attribute [irreducible] validateBadge setEmptyCls

theorem clearInvalid_evolves (k : Nat) (s : EngineState) :
    Evolves s (clearInvalid k s) :=
  Evolves_keysEq (Nat.le_refl _) (updateChild_keys _ _ _ (fun b => rfl))

attribute [irreducible] clearInvalid

theorem keydownFinish_evolves (p : JsParser) (nk : Nat) (plan : ActPlan)
    (d2 : BadgeData) (evsAcc : List (List Ev)) (s : EngineState) :
    Evolves s (keydownFinish p nk plan d2 evsAcc s).1 := by
  unfold keydownFinish
  dsimp only
  split
  · exact ((updateBadge_evolves _ _ _).trans
      (runActPlan_evolves _ _ _ _ _)).trans (keydownCatch_evolves _ _ _ _)
  · exact (updateBadge_evolves _ _ _).trans (runActPlan_evolves _ _ _ _ _)

attribute [irreducible] keydownFinish

set_option maxHeartbeats 800000 in
theorem keydownSplitRight_evolves (p : JsParser) (nk : Nat) (it1 : PItem)
    (focusOff : Nat) (text : List Char) (plan0 : ActPlan)
    (newText : List Char) (evsAcc : List (List Ev)) (s0 : EngineState) :
    Evolves s0 (keydownSplitRight p nk it1 focusOff text plan0 newText evsAcc s0).1 := by
  unfold keydownSplitRight
  dsimp only
  repeat' split
  all_goals first
  | exact (((prependTextNode_evolves _ _ _).trans
      (enableBadge_evolves _ _ _)).trans
      (setBadgeTextContent_evolves _ _ _)).trans (keydownFinish_evolves _ _ _ _ _ _)
  | exact ((prependTextNode_evolves _ _ _).trans
      (enableBadge_evolves _ _ _)).trans (keydownFinish_evolves _ _ _ _ _ _)

attribute [irreducible] keydownSplitRight

set_option maxHeartbeats 800000 in
theorem keydownSplit_evolves (p : JsParser) (k : Nat) (focusOff : Nat)
    (text : List Char) (items : List (Option PItem)) (s : EngineState) :
    Evolves s (keydownSplit p k focusOff text items s).1 := by
  unfold keydownSplit
  dsimp only
  repeat' split
  all_goals first
  | exact keydownCatch_evolves _ _ _ _
  | exact keydownFinish_evolves _ _ _ _ _ _
  | exact (setBadgeTextContent_evolves _ _ _).trans (keydownFinish_evolves _ _ _ _ _ _)
  | exact ((((splitTextOff_evolves _ _ _).trans
      (setBadgeTextContent_evolves _ _ _)).trans
      (updateBadge_evolves _ _ _)).trans
      (deactivateBadge_evolves _ _ _ _)).trans (keydownCatch_evolves _ _ _ _)
  | exact ((((splitTextOff_evolves _ _ _).trans
      (setBadgeTextContent_evolves _ _ _)).trans
      (updateBadge_evolves _ _ _)).trans
      (deactivateBadge_evolves _ _ _ _)).trans
      (keydownSplitRight_evolves _ _ _ _ _ _ _ _ _)

attribute [irreducible] keydownSplit

theorem keydown_evolves (p : JsParser) (k? : Option Nat) (anchorOff focusOff : Nat)
    (ch : Char) (s : EngineState) : Evolves s (keydown p k? anchorOff focusOff ch s).1 := by
  unfold keydown
  dsimp only
  repeat' split
  all_goals first
  | exact Evolves.rfl _
  | exact updateBadge_evolves _ _ _
  | exact clearInvalid_evolves _ _
  | exact (clearInvalid_evolves _ _).trans (keydownSplit_evolves _ _ _ _ _ _)

theorem keyupStep_evolves (p : JsParser) (k? : Option Nat) (s : EngineState) :
    Evolves s (keyupStep p k? s).1 := by
  unfold keyupStep
  dsimp only
  repeat' split
  all_goals first
  | exact Evolves.rfl _
  | exact ((activateBadge_evolves _ _ _ _).trans
      (validateBadge_evolves _ _ _ _)).trans (enableBadge_evolves _ _ _)
  | exact (activateBadge_evolves _ _ _ _).trans (validateBadge_evolves _ _ _ _)

/-- Appending one badge carrying the next fresh key while bumping the key
sequence respects the key discipline, whatever happens to the map or to the
active-badge pointer. -/
theorem appendFreshNode_evolves {s s' : EngineState} (node : Badge)
    (hch : s'.children = s.children ++ [node])
    (hseq : s'.keySeq = s.keySeq + 1)
    (hk : node.key = s.keySeq + 1) : Evolves s s' := by
  refine Evolves_permFresh [node] (by omega) ?_ (by simp) ?_
  · intro f hf
    simp only [List.mem_singleton] at hf
    subst hf
    omega
  · rw [hch]
    exact List.perm_append_comm

theorem appendFresh_evolves (s : EngineState) :
    Evolves s { (makeChild none s).2 with
                children := (makeChild none s).2.children ++ [(makeChild none s).1] } :=
  appendFreshNode_evolves _ rfl rfl rfl

theorem focusStep_evolves (p : JsParser) (k? : Option Nat) (s : EngineState) :
    Evolves s (focusStep p k? s).1 := by
  unfold focusStep
  dsimp only
  repeat' split
  all_goals first
  | exact Evolves.rfl _
  | exact activateBadge_evolves _ _ _ _
  | exact appendFresh_evolves _
  | exact (appendFresh_evolves _).trans (activateBadge_evolves _ _ _ _)

theorem blurStep_evolves (p : JsParser) (s : EngineState) :
    Evolves s (blurStep p s).1 := by
  unfold blurStep
  dsimp only
  split
  · exact deactivateBadge_evolves _ _ _ _
  · exact Evolves.rfl _

theorem makeChild_some_key (tc : List Char) (s : EngineState) :
    (makeChild (some tc) s).1.key = s.keySeq + 1 := by
  unfold makeChild
  dsimp only
  split <;> rfl

theorem addOneValue_evolves (acc : EngineState × List Ev) (v : PItem) :
    Evolves acc.1 (addOneValue acc v).1 := by
  unfold addOneValue
  dsimp only
  refine (appendFreshNode_evolves
    { (makeChild (some (match v.text with | some t => t | none => objectToString)) acc.1).1 with
        invalidCls := false, validCls := true } rfl rfl ?_).trans
    (enableBadge_evolves _ _ _)
  exact makeChild_some_key _ _

theorem foldl_addOneValue_evolves (items : List PItem) (acc : EngineState × List Ev) :
    Evolves acc.1 (items.foldl addOneValue acc).1 := by
  induction items generalizing acc with
  | nil => exact Evolves.rfl _
  | cons v vs ih => exact (addOneValue_evolves acc v).trans (ih _)

theorem valueSetter_evolves (items : List PItem) (s : EngineState) :
    Evolves s (valueSetter items s).1 := by
  unfold valueSetter
  dsimp only
  have h1 : Evolves s { s with
      children := ((deleteLoop s.badgeMap s.children 0).2.filter fun b => !b.emptyCls),
      badgeMap := [] } :=
    Evolves_sublist (Nat.le_refl _)
      ((List.filter_sublist _).trans (deleteLoop_sublist _ _ _))
  have h2 := foldl_addOneValue_evolves items
    ({ s with
        children := ((deleteLoop s.badgeMap s.children 0).2.filter fun b => !b.emptyCls),
        badgeMap := [] }, ([] : List Ev))
  exact h1.trans h2

theorem textContentSetter_evolves (p : JsParser) (tc : List Char) (s : EngineState) :
    Evolves s (textContentSetter p tc s).1 := by
  unfold textContentSetter
  split
  · exact valueSetter_evolves _ _
  · exact Evolves.rfl _

theorem stepOp_evolves (p : JsParser) (s : EngineState) (op : Op) :
    Evolves s (stepOp p s op) := by
  cases op with
  | keyEdit k? a f ch => exact keydown_evolves p k? a f ch s
  | keyLift k? => exact keyupStep_evolves p k? s
  | focusEv k? => exact focusStep_evolves p k? s
  | blurEv => exact blurStep_evolves p s
  | setValue items => exact valueSetter_evolves items s
  | setText tc => exact textContentSetter_evolves p tc s

theorem runOps_evolves (p : JsParser) (ops : List Op) (s : EngineState) :
    Evolves s (runOps p ops s) := by
  induction ops generalizing s with
  | nil => exact Evolves.rfl _
  | cons op ops ih => exact (stepOp_evolves p s op).trans (ih _)

/-- Splitting an operation run at any point. -/
theorem runOps_append (p : JsParser) (ops1 ops2 : List Op) (s : EngineState) :
    runOps p (ops1 ++ ops2) s = runOps p ops2 (runOps p ops1 s) := by
  unfold runOps
  rw [List.foldl_append]

/-- C9: key discipline over every operation sequence (keydown edits, keyup,
focus, blur, bulk `value` assignment and `textContent` assignment).  From a
well-formed state, across any continuation `ops2` after any prefix `ops1`:
the key sequence only grows (fresh keys are handed out in strictly
increasing order), well-formedness is preserved (child keys stay distinct,
positive and bounded by the sequence), and every key present afterwards that
lies within the older key range already identified a child at the split
point - so a key is never reused for a different segment and a surviving
segment keeps its key for its whole lifetime. -/
theorem c9_key_discipline (p : JsParser) (ops1 ops2 : List Op) (s : EngineState)
    (hok : KeysOK s) :
    (runOps p ops1 s).keySeq ≤ (runOps p (ops1 ++ ops2) s).keySeq ∧
    KeysOK (runOps p (ops1 ++ ops2) s) ∧
    ∀ k ∈ (runOps p (ops1 ++ ops2) s).children.map (·.key),
      k ≤ (runOps p ops1 s).keySeq → k ∈ (runOps p ops1 s).children.map (·.key) := by
  have h1 := runOps_evolves p ops1 s
  have h2 := runOps_evolves p ops2 (runOps p ops1 s)
  obtain ⟨hok1, _⟩ := h1.2 hok
  obtain ⟨hok2, hcorr2⟩ := h2.2 hok1
  rw [runOps_append]
  exact ⟨h2.1, hok2, hcorr2⟩

/-- A throwing parser (also exercises the engine's catch paths). -/
def c9P : JsParser := fun _ => Except.error ()

/-- A well-formed one-badge starting state for the C9 witness. -/
def c9S0 : EngineState :=
  { children := [freshEmptyBadge 1], badgeMap := [], activeKey := none, keySeq := 1 }

def c9Ops1 : List Op := [Op.setValue [], Op.focusEv none]

def c9Ops2 : List Op := [Op.keyEdit (some 2) 0 0 ',', Op.blurEv]

/-- Witness for C9 at a concrete state and operation split. -/
theorem c9_key_discipline_witness :
    KeysOK c9S0 ∧
    ((runOps c9P c9Ops1 c9S0).keySeq ≤ (runOps c9P (c9Ops1 ++ c9Ops2) c9S0).keySeq ∧
     KeysOK (runOps c9P (c9Ops1 ++ c9Ops2) c9S0) ∧
     ∀ k ∈ (runOps c9P (c9Ops1 ++ c9Ops2) c9S0).children.map (·.key),
       k ≤ (runOps c9P c9Ops1 c9S0).keySeq →
       k ∈ (runOps c9P c9Ops1 c9S0).children.map (·.key)) := by
  have hok : KeysOK c9S0 := ⟨by decide, by decide⟩
  exact ⟨hok, c9_key_discipline c9P c9Ops1 c9Ops2 c9S0 hok⟩
